import Mathlib

/-!
MimeCategorizer (qZedStat): filename-to-category classification

A shallow embedding of `src/MimeCategorizer.cpp` and the properties of its
classification algorithm.

Modelling conventions

* `QString` is a list of characters; `QString::section( '.', 1 )` is the text
  after the first dot (empty when there is no dot).
* A `MimeCategory *` is a `MimeCategory` value that carries its object identity
  in the field `ptr`; the null pointer is `none`.  The store only ever holds
  non-null pointers (`add` and `buildMaps` guard them with `CHECK_PTR`), so it
  is a `List MimeCategory`.
* `QMap<QString, MimeCategory *>` is an association list with at most one entry
  per key; only `contains`, `value`, `operator[]` and `clear` are used.
* `QRegExp::exactMatch` belongs to Qt; it is a parameter `exactMatch` of the
  functions that call it.
* `QString::toLower` and `QString::toUpper` map by Unicode in Qt.  The model
  maps the ASCII letters and leaves every other character, which is Qt's
  result for strings of ASCII characters; what is stated about the value of a
  case mapping is stated for strings of ASCII characters only.
* The two overloads of `category()` are `category` (file name) and
  `categoryOfItem` (`FileInfo *`); both return the category together with the
  state they leave, since they may rebuild the maps.
* `addDefaultCategories()` and `readSettings()` create their categories with
  the addresses 1, 2, ... for what `new` returns.  The default case sensitivity
  of `MimeCategory::addSuffixes()` is declared in `MimeCategory.h`; it is the
  parameter `defaultCaseSensitivity`.  `MimeCategory::addPatterns()` is a
  parameter of `readSettings`.
* The `while` loop of `category()` runs on a fuel argument; `category()` hands
  it the length of the first candidate, which is always enough
  (`suffixLoop_eq_foldl`).
-/

namespace QZedStat

/-! ## Data model -/

/-- A `QString`, as its sequence of characters. -/
abbrev QString := List Char

/-- The Qt enumeration `Qt::CaseSensitivity`. -/
inductive CaseSensitivity where
  | CaseInsensitive
  | CaseSensitive
deriving DecidableEq, Repr

/-- A `QRegExp` as `MimeCategory` builds it: the pattern text and the case
sensitivity it was compiled with.  Matching itself is Qt code and is passed to
the classifier as the parameter `exactMatch`. -/
structure QRegExp where
  pattern : QString
  caseSensitivity : CaseSensitivity
deriving DecidableEq, Repr

/-- Modelled from the spec: the class `MimeCategory` (declared in
`MimeCategory.h`, which is not part of the sources at hand).  Spec section 3:
a category has a name, a colour, the case-sensitive and the case-insensitive
suffix list and an ordered pattern list.  `ptr` is the address of the object:
two pointers denote the same category exactly when their `ptr` agree. -/
structure MimeCategory where
  ptr : Nat
  name : QString
  color : Nat × Nat × Nat
  caseInsensitiveSuffixList : List QString
  caseSensitiveSuffixList : List QString
  patternList : List QRegExp
deriving DecidableEq, Repr

/-- Modelled from the spec: the part of `FileInfo` (declared in `FileInfo.h`,
not part of the sources at hand) that `category( FileInfo * )` reads: the name
and the two directory flags.  The item is a valid object (`CHECK_PTR` and
`CHECK_MAGIC` pass). -/
structure FileInfo where
  name : QString
  isDir : Bool
  isDirInfo : Bool
deriving DecidableEq, Repr

/-- A `QMap<QString, MimeCategory *>`. -/
abbrev SuffixMap := List (QString × MimeCategory)

/-- The member `QMap::value( key, 0 )`: the value stored under `key`, or null. -/
def SuffixMap.value : SuffixMap → QString → Option MimeCategory
  | [], _ => none
  | (k, v) :: m, key => if k = key then some v else SuffixMap.value m key

/-- The member `QMap::contains( key )`. -/
def SuffixMap.contains : SuffixMap → QString → Bool
  | [], _ => false
  | (k, _) :: m, key => if k = key then true else SuffixMap.contains m key

/-- The assignment `map[ key ] = category`: overwrites the entry of `key`, or
adds one. -/
def SuffixMap.insert : SuffixMap → QString → MimeCategory → SuffixMap
  | [], key, category => [(key, category)]
  | (k, v) :: m, key, category =>
    if k = key then (key, category) :: m else (k, v) :: SuffixMap.insert m key category

/-- The keys of a map. -/
def SuffixMap.keys (m : SuffixMap) : List QString := m.map Prod.fst

/-- The state of a `MimeCategorizer` object. -/
structure MimeCategorizer where
  categories : List MimeCategory
  caseInsensitiveSuffixMap : SuffixMap
  caseSensitiveSuffixMap : SuffixMap
  mapsDirty : Bool
deriving DecidableEq, Repr

/-! ## String helpers -/

/-- The call `s.section( '.', 1 )`: everything after the first dot of `s`; empty
when `s` has no dot. -/
def section1 : QString → QString
  | [] => []
  | c :: cs => if c = '.' then cs else section1 cs

/-- The call `s.toLower()` for a string of ASCII characters: the letters `A` to
`Z` become `a` to `z`.  Qt maps other characters by Unicode; the model leaves
them as they are, and nothing is stated about their mapping. -/
def toLower (s : QString) : QString := s.map Char.toLower

/-- The call `s.toUpper()` for a string of ASCII characters: the letters `a` to
`z` become `A` to `Z`.  Qt maps other characters by Unicode; the model leaves
them as they are, and nothing is stated about their mapping. -/
def toUpper (s : QString) : QString := s.map Char.toUpper

/-! ## Operations of `MimeCategorizer` -/

namespace MimeCategorizer

/-- The state right after the member initialisers of the constructor: nothing
stored, empty maps, `_mapsDirty( true )`. -/
def init : MimeCategorizer :=
  { categories := [], caseInsensitiveSuffixMap := [], caseSensitiveSuffixMap := [],
    mapsDirty := true }

/-- The member function `MimeCategorizer::clear()`. -/
def clear (st : MimeCategorizer) : MimeCategorizer :=
  { st with categories := [], mapsDirty := true }

/-- The member function `MimeCategorizer::add()`. -/
def add (st : MimeCategorizer) (category : MimeCategory) : MimeCategorizer :=
  { st with categories := st.categories ++ [category], mapsDirty := true }

/-- The member function `MimeCategorizer::remove()`: `removeAll` drops every
entry that is the pointer `category`. -/
def remove (st : MimeCategorizer) (category : MimeCategory) : MimeCategorizer :=
  { st with categories := st.categories.filter (fun c => c.ptr != category.ptr),
            mapsDirty := true }

/-- The member function `MimeCategorizer::addSuffixes()`: a suffix that the map
already contains is reported and left with its owner; any other suffix is
entered for `category`. -/
def addSuffixes (suffixMap : SuffixMap) (category : MimeCategory) :
    List QString → SuffixMap
  | [] => suffixMap
  | suffix :: rest =>
    if suffixMap.contains suffix then
      addSuffixes suffixMap category rest
    else
      addSuffixes (suffixMap.insert suffix category) category rest

/-- The `foreach` loop of `buildMaps()`, on the pair of maps
(case-insensitive, case-sensitive). -/
def buildLoop : List MimeCategory → SuffixMap × SuffixMap → SuffixMap × SuffixMap
  | [], maps => maps
  | category :: rest, (ci, cs) =>
    buildLoop rest (addSuffixes ci category category.caseInsensitiveSuffixList,
                    addSuffixes cs category category.caseSensitiveSuffixList)

/-- The member function `MimeCategorizer::buildMaps()`. -/
def buildMaps (st : MimeCategorizer) : MimeCategorizer :=
  let maps := buildLoop st.categories ([], [])
  { st with caseInsensitiveSuffixMap := maps.1, caseSensitiveSuffixMap := maps.2,
            mapsDirty := false }

/-- The lines `if ( _mapsDirty ) buildMaps();` of `category()`. -/
def ensureBuilt (st : MimeCategorizer) : MimeCategorizer :=
  if st.mapsDirty then st.buildMaps else st

/-- The body of the `while` loop of `category()` up to the next suffix: the case
sensitive map first, then the case insensitive map with the lower-cased
suffix. -/
def lookupSuffix (st : MimeCategorizer) (suffix : QString) : Option MimeCategory :=
  match st.caseSensitiveSuffixMap.value suffix with
  | some category => some category
  | none => st.caseInsensitiveSuffixMap.value (toLower suffix)

/-- The `while ( ! suffix.isEmpty() )` loop of `category()`: every round assigns
`category` from the maps and moves on to the next suffix. -/
def suffixLoop (st : MimeCategorizer) :
    Nat → QString → Option MimeCategory → Option MimeCategory
  | 0, _, category => category
  | fuel + 1, suffix, category =>
    if suffix.isEmpty then category
    else suffixLoop st fuel (section1 suffix) (st.lookupSuffix suffix)

/-- The inner `foreach` of `matchPatterns()`: does a pattern of the list match
the file name exactly? -/
def matchPatternList (exactMatch : QRegExp → QString → Bool) (filename : QString) :
    List QRegExp → Bool
  | [] => false
  | pattern :: rest =>
    if exactMatch pattern filename then true
    else matchPatternList exactMatch filename rest

/-- The outer `foreach` of `matchPatterns()`. -/
def matchCategories (exactMatch : QRegExp → QString → Bool) (filename : QString) :
    List MimeCategory → Option MimeCategory
  | [] => none
  | category :: rest =>
    if matchPatternList exactMatch filename category.patternList then some category
    else matchCategories exactMatch filename rest

/-- The member function `MimeCategorizer::matchPatterns()`. -/
def matchPatterns (exactMatch : QRegExp → QString → Bool) (st : MimeCategorizer)
    (filename : QString) : Option MimeCategory :=
  matchCategories exactMatch filename st.categories

/-- The member function `MimeCategorizer::category( const QString & )`: the
category found and the state the call leaves behind. -/
def category (exactMatch : QRegExp → QString → Bool) (st : MimeCategorizer)
    (filename : QString) : Option MimeCategory × MimeCategorizer :=
  if filename.isEmpty then (none, st)
  else
    let st1 := st.ensureBuilt
    let suffix := section1 filename
    match suffixLoop st1 suffix.length suffix none with
    | some category => (some category, st1)
    | none => (matchPatterns exactMatch st1 filename, st1)

/-- The member function `MimeCategorizer::category( FileInfo * )`. -/
def categoryOfItem (exactMatch : QRegExp → QString → Bool) (st : MimeCategorizer)
    (item : FileInfo) : Option MimeCategory × MimeCategorizer :=
  if item.isDir || item.isDirInfo then (none, st)
  else category exactMatch st item.name

/-! ## The algorithm in the words of the specification -/

/-- The suffix candidates of a file name in try-order (spec section 4.4, step
3): the text after the first dot, then the text after the second dot, and so
on; a candidate that is empty (the name ends with a dot) is not a candidate. -/
def candidates : QString → List QString
  | [] => []
  | c :: cs =>
    if c = '.' then (if cs.isEmpty then [] else [cs]) ++ candidates cs
    else candidates cs

/-- The suffix phase as the specification words it (section 4.4, step 4): the
category of the first candidate that hits in either map. -/
def firstHit (st : MimeCategorizer) (filename : QString) : Option MimeCategory :=
  (candidates filename).findSome? st.ensureBuilt.lookupSuffix

/-- The lookup of the last candidate of a file name alone: what the loop of
`category()` leaves in `category` (`category_eq`). -/
def lastHit (st : MimeCategorizer) (filename : QString) : Option MimeCategory :=
  match (candidates filename).getLast? with
  | none => none
  | some s => st.ensureBuilt.lookupSuffix s

/-- The categorizer that holds the given categories and has not built its maps
yet. -/
def fresh (categories : List MimeCategory) : MimeCategorizer :=
  { categories := categories, caseInsensitiveSuffixMap := [],
    caseSensitiveSuffixMap := [], mapsDirty := true }

/-- A call of the public interface of `MimeCategorizer`.  The category handed
to `add` carries the rule lists it has when the maps are next built. -/
inductive Call where
  | add (category : MimeCategory)
  | remove (category : MimeCategory)
  | clear
  | classify (filename : QString)
  | classifyItem (item : FileInfo)
deriving DecidableEq, Repr

/-- The state after one call. -/
def step (exactMatch : QRegExp → QString → Bool) (st : MimeCategorizer) :
    Call → MimeCategorizer
  | Call.add category => st.add category
  | Call.remove category => st.remove category
  | Call.clear => st.clear
  | Call.classify filename => (st.category exactMatch filename).2
  | Call.classifyItem item => (st.categoryOfItem exactMatch item).2

/-- The state after a sequence of calls. -/
def run (exactMatch : QRegExp → QString → Bool) (st : MimeCategorizer)
    (calls : List Call) : MimeCategorizer :=
  calls.foldl (step exactMatch) st

/-- A matcher for patterns without wildcard characters: such a pattern matches
exactly its own text. -/
def literalMatch (pattern : QRegExp) (filename : QString) : Bool :=
  pattern.pattern = filename

/-- The index is coherent: when the maps are not flagged dirty they are the
maps `buildMaps()` makes of the store. -/
def Coherent (st : MimeCategorizer) : Prop :=
  st.mapsDirty = false →
    st.caseInsensitiveSuffixMap = st.buildMaps.caseInsensitiveSuffixMap ∧
    st.caseSensitiveSuffixMap = st.buildMaps.caseSensitiveSuffixMap

/-- The number of rounds the `while` loop of `category()` makes when it starts
with `suffix`; `none` when the fuel is used up before the loop condition
fails. -/
def loopRounds : Nat → QString → Option Nat
  | 0, suffix => if suffix.isEmpty then some 0 else none
  | fuel + 1, suffix =>
    if suffix.isEmpty then some 0
    else (loopRounds fuel (section1 suffix)).map (fun n => n + 1)

/-- The number of dots of a string. -/
def dots (s : QString) : Nat := s.count '.'

/-- Every `add` of the sequence hands over a category object that is not in
the store at that moment. -/
def addsFresh (exactMatch : QRegExp → QString → Bool) :
    MimeCategorizer → List Call → Bool
  | _, [] => true
  | st, Call.add category :: rest =>
    !(st.categories.map MimeCategory.ptr).contains category.ptr &&
      addsFresh exactMatch (st.add category) rest
  | st, call :: rest => addsFresh exactMatch (step exactMatch st call) rest

/-- Removal as the specification words it (section 4.2): the first entry that
is the object `category` is taken out, all others stay. -/
def removeFirst : List MimeCategory → MimeCategory → List MimeCategory
  | [], _ => []
  | c :: rest, category =>
    if c.ptr = category.ptr then rest else c :: removeFirst rest category

/-- A line of the error log of `addSuffixes()`: the duplicate suffix, the owner
the map has for it, and the category that declares it again. -/
structure DuplicateReport where
  suffix : QString
  owner : Option MimeCategory
  category : MimeCategory
deriving DecidableEq, Repr

/-- The member function `MimeCategorizer::addSuffixes()` together with the
lines it writes to the error log. -/
def addSuffixesLogged (suffixMap : SuffixMap) (category : MimeCategory) :
    List QString → List DuplicateReport → SuffixMap × List DuplicateReport
  | [], log => (suffixMap, log)
  | suffix :: rest, log =>
    if suffixMap.contains suffix then
      addSuffixesLogged suffixMap category rest
        (log ++ [{ suffix := suffix, owner := suffixMap.value suffix,
                   category := category }])
    else
      addSuffixesLogged (suffixMap.insert suffix category) category rest log

/-- The `foreach` loop of `buildMaps()` on the two maps and the error log. -/
def buildLoopLogged :
    List MimeCategory → SuffixMap × SuffixMap × List DuplicateReport →
      SuffixMap × SuffixMap × List DuplicateReport
  | [], acc => acc
  | category :: rest, (ci, cs, log) =>
    let r1 := addSuffixesLogged ci category category.caseInsensitiveSuffixList log
    let r2 := addSuffixesLogged cs category category.caseSensitiveSuffixList r1.2
    buildLoopLogged rest (r1.1, r2.1, r2.2)

/-- The duplicates that `buildMaps()` reports for the store. -/
def duplicateReports (st : MimeCategorizer) : List DuplicateReport :=
  (buildLoopLogged st.categories ([], [], [])).2.2

end MimeCategorizer

/-! ## Categories as the bootstrap and the settings make them -/

/-- Modelled from the spec: the constructor `MimeCategory( name, color )` of
`MimeCategory.cpp`, which is not part of the sources at hand: a category with
that name and colour and no rules yet.  `ptr` is the address `new` returns. -/
def MimeCategory.create (ptr : Nat) (name : QString) (color : Nat × Nat × Nat) :
    MimeCategory :=
  { ptr := ptr, name := name, color := color, caseInsensitiveSuffixList := [],
    caseSensitiveSuffixList := [], patternList := [] }

/-- Modelled from the spec: the normal form `MimeCategory::addSuffixes()` gives
a suffix (spec section 4.1): leading dots are stripped, and a case-insensitive
suffix is lower-cased. -/
def normalizeSuffix (caseSensitivity : CaseSensitivity) (suffix : QString) : QString :=
  match caseSensitivity with
  | CaseSensitivity.CaseInsensitive => toLower (suffix.dropWhile (fun c => c == '.'))
  | CaseSensitivity.CaseSensitive => suffix.dropWhile (fun c => c == '.')

/-- Modelled from the spec: the member function `MimeCategory::addSuffixes(
list, caseSensitivity )` of `MimeCategory.cpp`, which is not part of the
sources at hand (spec section 4.1): the normalised suffixes are appended to
the list of that case sensitivity. -/
def MimeCategory.addSuffixes (category : MimeCategory) (suffixList : List QString)
    (caseSensitivity : CaseSensitivity) : MimeCategory :=
  match caseSensitivity with
  | CaseSensitivity.CaseInsensitive =>
    { category with
      caseInsensitiveSuffixList := category.caseInsensitiveSuffixList ++
        suffixList.map (normalizeSuffix CaseSensitivity.CaseInsensitive) }
  | CaseSensitivity.CaseSensitive =>
    { category with
      caseSensitiveSuffixList := category.caseSensitiveSuffixList ++
        suffixList.map (normalizeSuffix CaseSensitivity.CaseSensitive) }

/-- The suffix list of the given case sensitivity. -/
def MimeCategory.suffixList (category : MimeCategory) :
    CaseSensitivity → List QString
  | CaseSensitivity.CaseInsensitive => category.caseInsensitiveSuffixList
  | CaseSensitivity.CaseSensitive => category.caseSensitiveSuffixList

/-- Modelled from the spec: a settings group `[MimeCategory_xx]` as
`readSettings()` gets it from `MimeCategorySettings` (`Settings.h`, not part of
the sources at hand; spec section 6): name, colour and the two pattern lists,
the defaults for a missing name or colour already in place. -/
structure SettingsGroup where
  name : QString
  color : Nat × Nat × Nat
  patternsCaseInsensitive : List QString
  patternsCaseSensitive : List QString
deriving DecidableEq, Repr

namespace MimeCategorizer

/-- The table of `addDefaultCategories()`: name, colour and suffixes of every
category, in the order of the source. -/
def defaultTable : List (String × (Nat × Nat × Nat) × List String) :=
  [ ("Ada", (0x00, 0x54, 0xe1), ["ada", "a", "adb", "ads"]),
    ("ASP, ASP.NET", (0x00, 0x40, 0x80), ["asp", "aspx"]),
    ("Bash", (0x00, 0xdd, 0xff), ["sh", "ksh"]),
    ("C Shell", (0xff, 0xfd, 0xce), ["csh", "tcsh"]),
    ("C#", (0x21, 0x1b, 0x0c), ["cs"]),
    ("C/C++", (0x17, 0x00, 0x00), ["cpp", "c", "h", "hpp", "cc", "hh"]),
    ("ColdFusion", (0x00, 0xf1a, 0x64), ["cfs"]),
    ("CSS", (0x95, 0xbb, 0xef), ["css"]),
    ("Fortran", (0x00, 0x1d, 0x36), ["f", "for", "f77", "f90", "f95", "f03", "hpf"]),
    ("HTML", (0xdc, 0xff, 0xff), ["htm", "html", "shtml", "stm", "sht", "oth", "xhtml"]),
    ("Java", (0xaf, 0x8e, 0x00), ["Java"]),
    ("JavaScript", (0x3e, 0x3b, 0x34), ["js"]),
    ("Pascal", (0x24, 0x00, 0x00), ["pas", "p", "pp", "pa3", "pa4", "pa5"]),
    ("Perl", (0xbd, 0xc7, 0xd9), ["pl", "pm"]),
    ("PHP", (0x49, 0x60, 0x7f), ["php"]),
    ("Python", (0x00, 0x8d, 0xff), ["py"]),
    ("Ruby", (0xff, 0xfb, 0x58), ["rb"]),
    ("SQL", (0x88, 0x75, 0x43), ["sql"]),
    ("VB", (0x41, 0x22, 0x00), ["vb", "frm", "mod", "cls", "bas"]),
    ("VHDL", (0x26, 0x00, 0x00), ["vhd", "vhdl"]) ]

/-- The category objects `addDefaultCategories()` creates from a table, with
the addresses `ptr`, `ptr + 1`, ... standing for what `new` returns.
`defaultCaseSensitivity` is the default argument of
`MimeCategory::addSuffixes()`, which `MimeCategory.h` declares. -/
def defaultsFrom (defaultCaseSensitivity : CaseSensitivity) :
    Nat → List (String × (Nat × Nat × Nat) × List String) → List MimeCategory
  | _, [] => []
  | ptr, (name, color, suffixes) :: rest =>
    (MimeCategory.create ptr name.toList color).addSuffixes
        (suffixes.map String.toList) defaultCaseSensitivity
      :: defaultsFrom defaultCaseSensitivity (ptr + 1) rest

/-- The categories of `addDefaultCategories()`. -/
def defaultCategories (defaultCaseSensitivity : CaseSensitivity) : List MimeCategory :=
  defaultsFrom defaultCaseSensitivity 1 defaultTable

/-- The member function `MimeCategorizer::addDefaultCategories()`: every
category of the table is created, added, and given its suffixes. -/
def addDefaultCategories (defaultCaseSensitivity : CaseSensitivity)
    (st : MimeCategorizer) : MimeCategorizer :=
  (defaultCategories defaultCaseSensitivity).foldl add st

/-- The `foreach` loop of `readSettings()`.  `addPatterns` is
`MimeCategory::addPatterns()`, which is not part of the sources at hand. -/
def readGroups (addPatterns : MimeCategory → List QString → CaseSensitivity → MimeCategory) :
    Nat → List SettingsGroup → MimeCategorizer → MimeCategorizer
  | _, [], st => st
  | ptr, group :: rest, st =>
    let category := MimeCategory.create ptr group.name group.color
    let category := addPatterns category group.patternsCaseInsensitive
      CaseSensitivity.CaseInsensitive
    let category := addPatterns category group.patternsCaseSensitive
      CaseSensitivity.CaseSensitive
    readGroups addPatterns (ptr + 1) rest (st.add category)

/-- The member function `MimeCategorizer::readSettings()`, on the groups the
settings hold. -/
def readSettings (addPatterns : MimeCategory → List QString → CaseSensitivity → MimeCategory)
    (defaultCaseSensitivity : CaseSensitivity) (groups : List SettingsGroup)
    (st : MimeCategorizer) : MimeCategorizer :=
  let st1 := readGroups addPatterns 1 groups st.clear
  if st1.categories.isEmpty then addDefaultCategories defaultCaseSensitivity st1 else st1

end MimeCategorizer

/-! ## Sample categories -/

namespace Sample

/-- A category that declares the compound suffix `tar.bz2` and nothing else. -/
def tarballs : MimeCategory :=
  { ptr := 1, name := "Tarballs".toList, color := (0x80, 0x80, 0x80),
    caseInsensitiveSuffixList := [], caseSensitiveSuffixList := ["tar.bz2".toList],
    patternList := [] }

/-- A category without suffixes whose one pattern is the name `archive.tar.bz2`. -/
def byName : MimeCategory :=
  { ptr := 2, name := "By name".toList, color := (0x10, 0x20, 0x30),
    caseInsensitiveSuffixList := [], caseSensitiveSuffixList := [],
    patternList := [{ pattern := "archive.tar.bz2".toList,
                      caseSensitivity := CaseSensitivity.CaseSensitive }] }

/-- The first of two categories that declare the case-sensitive suffix `x`. -/
def first : MimeCategory :=
  { ptr := 3, name := "First".toList, color := (0xff, 0x00, 0x00),
    caseInsensitiveSuffixList := [], caseSensitiveSuffixList := ["x".toList],
    patternList := [] }

/-- The second of two categories that declare the case-sensitive suffix `x`. -/
def second : MimeCategory :=
  { ptr := 4, name := "Second".toList, color := (0x00, 0xff, 0x00),
    caseInsensitiveSuffixList := [], caseSensitiveSuffixList := ["x".toList],
    patternList := [] }

/-- A category that declares the case-insensitive suffix `c`. -/
def cSource : MimeCategory :=
  { ptr := 5, name := "C".toList, color := (0x17, 0x00, 0x00),
    caseInsensitiveSuffixList := ["c".toList], caseSensitiveSuffixList := [],
    patternList := [] }

/-- A category that declares the case-sensitive suffix `C`. -/
def cxxSource : MimeCategory :=
  { ptr := 6, name := "C++".toList, color := (0x17, 0x00, 0x80),
    caseInsensitiveSuffixList := [], caseSensitiveSuffixList := ["C".toList],
    patternList := [] }

/-- The first of two categories that declare the case-sensitive suffix `bz2`;
neither declares `tar.bz2`. -/
def bzipOne : MimeCategory :=
  { ptr := 7, name := "Bzip one".toList, color := (0x00, 0x00, 0xff),
    caseInsensitiveSuffixList := [], caseSensitiveSuffixList := ["bz2".toList],
    patternList := [] }

/-- The second of two categories that declare the case-sensitive suffix `bz2`. -/
def bzipTwo : MimeCategory :=
  { ptr := 8, name := "Bzip two".toList, color := (0x00, 0xff, 0xff),
    caseInsensitiveSuffixList := [], caseSensitiveSuffixList := ["bz2".toList],
    patternList := [] }

/-- A directory entry whose name is `archive.tar.bz2`. -/
def directory : FileInfo :=
  { name := "archive.tar.bz2".toList, isDir := true, isDirInfo := false }

/-- A plain file whose name is `archive.tar.bz2`. -/
def plainFile : FileInfo :=
  { name := "archive.tar.bz2".toList, isDir := false, isDirInfo := false }

end Sample

/-! ## Strings and candidates -/

theorem section1_length_le (s : QString) : (section1 s).length ≤ s.length - 1 := by
  induction s with
  | nil => simp [section1]
  | cons c cs ih =>
    simp only [section1]
    split
    · simp
    · simp only [List.length_cons, Nat.add_sub_cancel]
      omega

theorem section1_length_lt (s : QString) (h : s ≠ []) :
    (section1 s).length < s.length := by
  have h1 := section1_length_le s
  have h2 : 0 < s.length := List.length_pos.mpr h
  omega

theorem toUpper_char_fixed (c : Char) (h : ¬ (97 ≤ c.toNat ∧ c.toNat ≤ 122)) :
    c.toUpper = c := by
  unfold Char.toUpper
  simp only [ge_iff_le]
  rw [if_neg h]

theorem toLower_toUpper_char (c : Char) : c.toUpper.toLower = c.toLower := by
  by_cases h : 97 ≤ c.toNat ∧ c.toNat ≤ 122
  · obtain ⟨n, hn⟩ : ∃ n, n = c.toNat := ⟨_, rfl⟩
    have hc : c = Char.ofNat n := by rw [hn, Char.ofNat_toNat]
    rw [← hn] at h
    obtain ⟨h1, h2⟩ := h
    subst hc
    clear hn
    interval_cases n <;> rfl
  · rw [toUpper_char_fixed c h]

theorem toUpper_char_ne_dot (c : Char) (hc : c ≠ '.') : c.toUpper ≠ '.' := by
  by_cases h : 97 ≤ c.toNat ∧ c.toNat ≤ 122
  · obtain ⟨n, hn⟩ : ∃ n, n = c.toNat := ⟨_, rfl⟩
    have hc : c = Char.ofNat n := by rw [hn, Char.ofNat_toNat]
    rw [← hn] at h
    obtain ⟨h1, h2⟩ := h
    subst hc
    clear hn
    interval_cases n <;> decide
  · rw [toUpper_char_fixed c h]
    exact hc

/-- For a string of ASCII characters, lower-casing the upper-cased string gives
the lower-cased string. -/
theorem toLower_toUpper (s : QString) (hascii : ∀ c ∈ s, c.toNat < 128) :
    toLower (toUpper s) = toLower s := by
  induction s with
  | nil => rfl
  | cons c cs ih =>
    have ih1 := ih (fun d hd => hascii d (List.mem_cons_of_mem _ hd))
    simp only [toLower, toUpper, List.map_cons, List.map_map] at ih1 ⊢
    rw [toLower_toUpper_char c]
    simp only [List.cons.injEq, true_and]
    exact ih1

theorem toUpper_dotfree (s : QString) (hascii : ∀ c ∈ s, c.toNat < 128)
    (hs : '.' ∉ s) : '.' ∉ toUpper s := by
  have _ := hascii
  intro h
  simp only [toUpper, List.mem_map] at h
  obtain ⟨c, hc, hcu⟩ := h
  exact toUpper_char_ne_dot c (fun h0 => hs (h0 ▸ hc)) hcu

theorem toUpper_ne_nil (s : QString) (hs : s ≠ []) : toUpper s ≠ [] := by
  cases s with
  | nil => exact absurd rfl hs
  | cons c cs => simp [toUpper]

namespace MimeCategorizer

/-- The candidates are produced the way the loop walks them: the first one is
the text after the first dot, the others are the candidates of the first. -/
theorem candidates_unfold (f : QString) :
    candidates f =
      if (section1 f).isEmpty then [] else section1 f :: candidates (section1 f) := by
  induction f with
  | nil => simp [candidates, section1]
  | cons c cs ih =>
    by_cases hc : c = '.'
    · subst hc
      cases cs with
      | nil => simp [candidates, section1]
      | cons d ds => simp [candidates, section1]
    · simp only [candidates, section1, hc, if_false]
      exact ih

theorem candidates_ne_nil (f : QString) : ∀ s ∈ candidates f, s ≠ [] := by
  induction f with
  | nil => simp [candidates]
  | cons c cs ih =>
    intro s hs
    simp only [candidates] at hs
    split at hs
    · rcases List.mem_append.mp hs with h | h
      · split at h
        · simp at h
        · simp only [List.mem_singleton] at h
          subst h
          intro h0
          simp_all
      · exact ih s h
    · exact ih s hs

/-- With fuel for every character of the suffix, the loop leaves in `category`
the lookup of the last candidate it walked. -/
theorem suffixLoop_eq_foldl (st : MimeCategorizer) (fuel : Nat) :
    ∀ (suffix : QString) (category : Option MimeCategory), suffix.length ≤ fuel →
      suffixLoop st fuel suffix category =
        (if suffix.isEmpty then [] else suffix :: candidates suffix).foldl
          (fun _ s => st.lookupSuffix s) category := by
  induction fuel with
  | zero =>
    intro suffix category h
    have : suffix = [] := List.length_eq_zero.mp (Nat.le_zero.mp h)
    subst this
    simp [suffixLoop]
  | succ n ih =>
    intro suffix category h
    cases suffix with
    | nil => simp [suffixLoop]
    | cons c cs =>
      have hlen : (section1 (c :: cs)).length ≤ n := by
        have := section1_length_le (c :: cs)
        simp only [List.length_cons] at this h
        omega
      simp only [suffixLoop, List.isEmpty_cons, Bool.false_eq_true, if_false,
        List.foldl_cons]
      rw [ih _ _ hlen, candidates_unfold (c :: cs)]

theorem foldl_last_lookup (g : QString → Option MimeCategory) :
    ∀ (l : List QString) (a : Option MimeCategory),
      l.foldl (fun _ s => g s) a = match l.getLast? with
        | none => a
        | some s => g s := by
  intro l
  induction l with
  | nil => intro a; simp
  | cons x xs ih =>
    intro a
    rw [List.foldl_cons, ih]
    cases xs with
    | nil => simp
    | cons y ys =>
      rw [List.getLast?_cons_cons]
      cases h : (y :: ys).getLast? with
      | none => simp at h
      | some s => rfl

theorem suffixLoop_section1 (st : MimeCategorizer) (f : QString) :
    suffixLoop st (section1 f).length (section1 f) none =
      match (candidates f).getLast? with
      | none => none
      | some s => st.lookupSuffix s := by
  rw [suffixLoop_eq_foldl st _ _ _ (Nat.le_refl _), foldl_last_lookup,
    candidates_unfold f]

/-- What `category()` computes for a non-empty file name: the lookup of the last
candidate, and the pattern fallback when that is null. -/
theorem category_eq (exactMatch : QRegExp → QString → Bool) (st : MimeCategorizer)
    (f : QString) (hf : f ≠ []) :
    st.category exactMatch f =
      (match st.lastHit f with
        | some c => some c
        | none => matchPatterns exactMatch st.ensureBuilt f, st.ensureBuilt) := by
  have hE : f.isEmpty = false := by cases f <;> simp_all
  simp only [category, hE, Bool.false_eq_true, if_false, suffixLoop_section1, lastHit]
  split <;> simp_all

/-! ## The suffix maps -/

theorem contains_eq_isSome (m : SuffixMap) (k : QString) :
    m.contains k = (m.value k).isSome := by
  induction m with
  | nil => rfl
  | cons e m ih =>
    obtain ⟨k0, v⟩ := e
    simp only [SuffixMap.contains, SuffixMap.value]
    split
    · rfl
    · exact ih

theorem value_insert (m : SuffixMap) (k : QString) (c : MimeCategory) (k1 : QString) :
    (m.insert k c).value k1 = if k = k1 then some c else m.value k1 := by
  induction m with
  | nil => simp [SuffixMap.insert, SuffixMap.value]
  | cons e m ih =>
    obtain ⟨k0, v⟩ := e
    simp only [SuffixMap.insert]
    by_cases h0 : k0 = k
    · subst h0
      simp only [if_true, SuffixMap.value]
      by_cases h1 : k0 = k1 <;> simp only [h1, if_true, if_false]
    · simp only [h0, if_false, SuffixMap.value, ih]
      by_cases h1 : k0 = k1
      · subst h1
        have : ¬ k = k0 := fun h => h0 h.symm
        simp [this]
      · simp [h1]

theorem mem_keys_iff (m : SuffixMap) (k : QString) :
    k ∈ m.keys ↔ (m.value k).isSome = true := by
  induction m with
  | nil => simp [SuffixMap.keys, SuffixMap.value]
  | cons e m ih =>
    obtain ⟨k0, v⟩ := e
    simp only [SuffixMap.keys, List.map_cons, List.mem_cons, SuffixMap.value] at ih ⊢
    by_cases h0 : k0 = k
    · simp only [h0, if_true, Option.isSome_some, true_or]
    · have : ¬ k = k0 := fun h => h0 h.symm
      simp only [h0, this, if_false, false_or, ih]

/-- After `addSuffixes` a suffix has the owner it had before; a suffix without
an owner that is in the list is owned by `category`. -/
theorem addSuffixes_value (m : SuffixMap) (c : MimeCategory) (l : List QString)
    (k : QString) :
    (addSuffixes m c l).value k =
      match m.value k with
      | some v => some v
      | none => if k ∈ l then some c else none := by
  induction l generalizing m with
  | nil => simp only [addSuffixes, List.not_mem_nil, if_false]; split <;> simp_all
  | cons x xs ih =>
    simp only [addSuffixes, contains_eq_isSome]
    by_cases hx : (m.value x).isSome = true
    · simp only [hx, if_true, ih]
      cases hk : m.value k with
      | some v => rfl
      | none =>
        have hne : ¬ k = x := by
          intro h
          subst h
          simp [hk] at hx
        simp [hne]
    · simp only [hx, Bool.false_eq_true, if_false, ih, value_insert]
      by_cases hxk : x = k
      · subst hxk
        have : m.value x = none := by
          cases h : m.value x with
          | none => rfl
          | some v => simp [h] at hx
        simp [this]
      · have hne : ¬ k = x := fun h => hxk h.symm
        simp only [hxk, if_false, List.mem_cons, hne, false_or]

/-- The case-sensitive map that the loop of `buildMaps()` leaves: a suffix keeps
an owner it had, and otherwise gets the first category of the list that
declares it. -/
theorem buildLoop_cs_value (cats : List MimeCategory) (k : QString) :
    ∀ (ci cs : SuffixMap),
      (buildLoop cats (ci, cs)).2.value k =
        match cs.value k with
        | some v => some v
        | none => cats.find? (fun c => decide (k ∈ c.caseSensitiveSuffixList)) := by
  induction cats with
  | nil => intro ci cs; simp only [buildLoop, List.find?_nil]; split <;> simp_all
  | cons c rest ih =>
    intro ci cs
    simp only [buildLoop, ih, addSuffixes_value, List.find?_cons]
    cases hk : cs.value k with
    | some v => rfl
    | none =>
      by_cases hm : k ∈ c.caseSensitiveSuffixList
      · simp [hm]
      · simp [hm]

theorem buildLoop_ci_value (cats : List MimeCategory) (k : QString) :
    ∀ (ci cs : SuffixMap),
      (buildLoop cats (ci, cs)).1.value k =
        match ci.value k with
        | some v => some v
        | none => cats.find? (fun c => decide (k ∈ c.caseInsensitiveSuffixList)) := by
  induction cats with
  | nil => intro ci cs; simp only [buildLoop, List.find?_nil]; split <;> simp_all
  | cons c rest ih =>
    intro ci cs
    simp only [buildLoop, ih, addSuffixes_value, List.find?_cons]
    cases hk : ci.value k with
    | some v => rfl
    | none =>
      by_cases hm : k ∈ c.caseInsensitiveSuffixList
      · simp [hm]
      · simp [hm]

/-- The owner of a suffix in the rebuilt case-sensitive map is the first
category of the store that declares it. -/
theorem buildMaps_cs_value (st : MimeCategorizer) (k : QString) :
    st.buildMaps.caseSensitiveSuffixMap.value k =
      st.categories.find? (fun c => decide (k ∈ c.caseSensitiveSuffixList)) := by
  simp [buildMaps, buildLoop_cs_value, SuffixMap.value]

theorem buildMaps_ci_value (st : MimeCategorizer) (k : QString) :
    st.buildMaps.caseInsensitiveSuffixMap.value k =
      st.categories.find? (fun c => decide (k ∈ c.caseInsensitiveSuffixList)) := by
  simp [buildMaps, buildLoop_ci_value, SuffixMap.value]

/-! ## Coherent states and single-candidate names -/

theorem coherent_fresh (cats : List MimeCategory) : Coherent (fresh cats) := by
  intro h
  simp [fresh] at h

theorem ensureBuilt_cs_value (st : MimeCategorizer) (h : Coherent st) (k : QString) :
    st.ensureBuilt.caseSensitiveSuffixMap.value k =
      st.categories.find? (fun c => decide (k ∈ c.caseSensitiveSuffixList)) := by
  unfold ensureBuilt
  by_cases hd : st.mapsDirty = true
  · simp only [hd, if_true, buildMaps_cs_value]
  · have hd0 : st.mapsDirty = false := by simpa using hd
    simp only [hd0, Bool.false_eq_true, if_false]
    rw [(h hd0).2, buildMaps_cs_value]

theorem ensureBuilt_ci_value (st : MimeCategorizer) (h : Coherent st) (k : QString) :
    st.ensureBuilt.caseInsensitiveSuffixMap.value k =
      st.categories.find? (fun c => decide (k ∈ c.caseInsensitiveSuffixList)) := by
  unfold ensureBuilt
  by_cases hd : st.mapsDirty = true
  · simp only [hd, if_true, buildMaps_ci_value]
  · have hd0 : st.mapsDirty = false := by simpa using hd
    simp only [hd0, Bool.false_eq_true, if_false]
    rw [(h hd0).1, buildMaps_ci_value]

theorem ensureBuilt_categories (st : MimeCategorizer) :
    st.ensureBuilt.categories = st.categories := by
  unfold ensureBuilt
  split <;> rfl

/-- The first entry of a list that satisfies `p`, given a split of the list at
that entry. -/
theorem find?_split {α : Type} (p : α → Bool) (pre : List α) (x : α) (post : List α)
    (hpre : ∀ y ∈ pre, p y = false) (hx : p x = true) :
    (pre ++ x :: post).find? p = some x := by
  induction pre with
  | nil => simp [List.find?_cons, hx]
  | cons y ys ih =>
    have hy : p y = false := hpre y (List.mem_cons_self _ _)
    simp only [List.cons_append, List.find?_cons, hy]
    exact ih (fun z hz => hpre z (List.mem_cons_of_mem _ hz))

theorem find?_none_of_forall {α : Type} (p : α → Bool) (l : List α)
    (h : ∀ y ∈ l, p y = false) : l.find? p = none := by
  induction l with
  | nil => rfl
  | cons y ys ih =>
    have hy : p y = false := h y (List.mem_cons_self _ _)
    simp only [List.find?_cons, hy]
    exact ih (fun z hz => h z (List.mem_cons_of_mem _ hz))

theorem candidates_dotfree (x : QString) (hx : '.' ∉ x) : candidates x = [] := by
  induction x with
  | nil => rfl
  | cons c cs ih =>
    have hc : ¬ c = '.' := fun h => hx (by simp [h])
    have hcs : '.' ∉ cs := fun h => hx (List.mem_cons_of_mem _ h)
    simp only [candidates, hc, if_false]
    exact ih hcs

/-- A name `x.s` with one dot and a non-empty `s` has the single candidate
`s`. -/
theorem candidates_single (x s : QString) (hx : '.' ∉ x) (hs : '.' ∉ s)
    (hne : s ≠ []) : candidates (x ++ '.' :: s) = [s] := by
  induction x with
  | nil =>
    have : s.isEmpty = false := by cases s <;> simp_all
    simp [candidates, this, candidates_dotfree s hs]
  | cons c cs ih =>
    have hc : ¬ c = '.' := fun h => hx (by simp [h])
    have hcs : '.' ∉ cs := fun h => hx (List.mem_cons_of_mem _ h)
    simp only [List.cons_append, candidates, hc, if_false]
    exact ih hcs

theorem lastHit_single (st : MimeCategorizer) (x s : QString) (hx : '.' ∉ x)
    (hs : '.' ∉ s) (hne : s ≠ []) :
    st.lastHit (x ++ '.' :: s) = st.ensureBuilt.lookupSuffix s := by
  simp [lastHit, candidates_single x s hx hs hne]

/-! ## Reachable states are coherent -/

theorem buildMaps_maps_of_categories (st1 st2 : MimeCategorizer)
    (h : st1.categories = st2.categories) :
    st1.buildMaps.caseInsensitiveSuffixMap = st2.buildMaps.caseInsensitiveSuffixMap ∧
    st1.buildMaps.caseSensitiveSuffixMap = st2.buildMaps.caseSensitiveSuffixMap := by
  simp [buildMaps, h]

theorem coherent_of_dirty (st : MimeCategorizer) (h : st.mapsDirty = true) :
    Coherent st := by
  intro h0
  rw [h] at h0
  cases h0

theorem coherent_buildMaps (st : MimeCategorizer) : Coherent st.buildMaps := by
  intro _
  exact buildMaps_maps_of_categories st.buildMaps st rfl

theorem coherent_ensureBuilt (st : MimeCategorizer) (h : Coherent st) :
    Coherent st.ensureBuilt := by
  unfold ensureBuilt
  split
  · exact coherent_buildMaps st
  · exact h

theorem coherent_category (exactMatch : QRegExp → QString → Bool) (st : MimeCategorizer)
    (h : Coherent st) (f : QString) : Coherent (category exactMatch st f).2 := by
  cases f with
  | nil => exact h
  | cons x xs =>
    rw [category_eq _ _ _ (by simp)]
    exact coherent_ensureBuilt st h

theorem coherent_step (exactMatch : QRegExp → QString → Bool) (st : MimeCategorizer)
    (h : Coherent st) (call : Call) : Coherent (step exactMatch st call) := by
  cases call with
  | add c => exact coherent_of_dirty _ rfl
  | remove c => exact coherent_of_dirty _ rfl
  | clear => exact coherent_of_dirty _ rfl
  | classify f => exact coherent_category exactMatch st h f
  | classifyItem item =>
    simp only [step, categoryOfItem]
    split
    · exact h
    · exact coherent_category exactMatch st h item.name

theorem coherent_run (exactMatch : QRegExp → QString → Bool) (calls : List Call) :
    ∀ st : MimeCategorizer, Coherent st → Coherent (run exactMatch st calls) := by
  induction calls with
  | nil => intro st h; exact h
  | cons call rest ih =>
    intro st h
    exact ih _ (coherent_step exactMatch st h call)

/-- In a coherent state the maps that `category()` reads are those of a fresh
categorizer with the same store. -/
theorem ensureBuilt_maps_eq_fresh (st : MimeCategorizer) (h : Coherent st) :
    st.ensureBuilt.caseInsensitiveSuffixMap
      = (fresh st.categories).ensureBuilt.caseInsensitiveSuffixMap ∧
    st.ensureBuilt.caseSensitiveSuffixMap
      = (fresh st.categories).ensureBuilt.caseSensitiveSuffixMap := by
  have hf : (fresh st.categories).ensureBuilt = (fresh st.categories).buildMaps := rfl
  rw [hf]
  have hb := buildMaps_maps_of_categories st (fresh st.categories) rfl
  unfold ensureBuilt
  by_cases hd : st.mapsDirty = true
  · simp only [hd, if_true]
    exact hb
  · have hd0 : st.mapsDirty = false := by simpa using hd
    simp only [hd0, Bool.false_eq_true, if_false]
    exact ⟨(h hd0).1.trans hb.1, (h hd0).2.trans hb.2⟩

theorem category_eq_fresh (exactMatch : QRegExp → QString → Bool) (st : MimeCategorizer)
    (h : Coherent st) (f : QString) :
    (category exactMatch st f).1 = (category exactMatch (fresh st.categories) f).1 := by
  cases f with
  | nil => rfl
  | cons x xs =>
    have hm := ensureBuilt_maps_eq_fresh st h
    rw [category_eq _ _ _ (by simp), category_eq _ _ _ (by simp)]
    simp only [lastHit, lookupSuffix, matchPatterns, ensureBuilt_categories, hm.1, hm.2]
    rfl

theorem find?_mem_isSome {α : Type} (p : α → Bool) (l : List α) :
    (l.find? p).isSome = true ↔ ∃ x ∈ l, p x = true := by
  induction l with
  | nil => simp
  | cons y ys ih =>
    simp only [List.find?_cons]
    cases hy : p y with
    | true => simp [hy]
    | false => simp [hy, ih]

theorem find?_some_mem {α : Type} (p : α → Bool) (l : List α) (x : α)
    (h : l.find? p = some x) : x ∈ l ∧ p x = true := by
  induction l with
  | nil => simp at h
  | cons y ys ih =>
    simp only [List.find?_cons] at h
    cases hy : p y with
    | true =>
      simp only [hy, Option.some.injEq] at h
      subst h
      exact ⟨List.mem_cons_self _ _, hy⟩
    | false =>
      simp only [hy] at h
      exact ⟨List.mem_cons_of_mem _ (ih h).1, (ih h).2⟩

/-! ## The suffix phase: first hit and last candidate -/

/-- C1 (evaluation of the code): the store holds the one category `tarballs`,
which declares `tar.bz2`; nobody declares `bz2`.  The candidates of
`archive.tar.bz2` are `tar.bz2` and `bz2`, the first of them hits in the index
and the first-hit rule of the specification yields `tarballs`; the loop of
`category()` goes on to `bz2`, overwrites the hit with null and the call
returns no category, whatever the pattern matcher is. -/
theorem C1_first_hit_is_overwritten (exactMatch : QRegExp → QString → Bool) :
    candidates "archive.tar.bz2".toList = ["tar.bz2".toList, "bz2".toList] ∧
    (fresh [Sample.tarballs]).ensureBuilt.lookupSuffix "tar.bz2".toList
      = some Sample.tarballs ∧
    (fresh [Sample.tarballs]).ensureBuilt.lookupSuffix "bz2".toList = none ∧
    firstHit (fresh [Sample.tarballs]) "archive.tar.bz2".toList = some Sample.tarballs ∧
    (category exactMatch (fresh [Sample.tarballs]) "archive.tar.bz2".toList).1 = none := by
  refine ⟨by decide, by decide, by decide, by decide, ?_⟩
  rw [category_eq _ _ _ (by decide)]
  have h : (fresh [Sample.tarballs]).lastHit "archive.tar.bz2".toList = none := by decide
  rw [h]
  rfl

/-- C2 (evaluation of the code): `tarballs` owns the candidate `tar.bz2` of
`archive.tar.bz2`, and the pattern of `byName` matches that name exactly; the
call returns `byName`, the category of the pattern, not the owner of the
suffix. -/
theorem C2_pattern_beats_earlier_candidate :
    "tar.bz2".toList ∈ candidates "archive.tar.bz2".toList ∧
    (fresh [Sample.tarballs, Sample.byName]).ensureBuilt.lookupSuffix "tar.bz2".toList
      = some Sample.tarballs ∧
    matchPatternList literalMatch "archive.tar.bz2".toList Sample.byName.patternList
      = true ∧
    (category literalMatch (fresh [Sample.tarballs, Sample.byName])
      "archive.tar.bz2".toList).1 = some Sample.byName := by
  decide

/-- C3 (the claim fails): `first` and `second` both declare the case-sensitive
suffix `x` and are added in this order; the rebuilt map does not give `x` to
`second`, and `f.x` is not classified as `second`. -/
theorem C3_later_category_does_not_win :
    "x".toList ∈ Sample.first.caseSensitiveSuffixList ∧
    "x".toList ∈ Sample.second.caseSensitiveSuffixList ∧
    Sample.first.ptr ≠ Sample.second.ptr ∧
    ((init.add Sample.first).add Sample.second).buildMaps.caseSensitiveSuffixMap.value
      "x".toList ≠ some Sample.second ∧
    (category literalMatch ((init.add Sample.first).add Sample.second) "f.x".toList).1
      ≠ some Sample.second := by
  decide

/-- C3 (amended): duplicate suffixes are resolved first-write-wins.  When `a`
and then `b` are added to a store none of whose categories declares the suffix
`s`, and both declare `s` in the same list, the rebuilt map of that list gives
`s` to `a`; and `f.x` is classified as `a` when both declare `x` case
sensitively, or both declare it case insensitively and neither case
sensitively. -/
theorem C3_first_added_wins (exactMatch : QRegExp → QString → Bool)
    (st : MimeCategorizer) (a b : MimeCategory) (s : QString)
    (hcs : ∀ c ∈ st.categories, s ∉ c.caseSensitiveSuffixList)
    (hci : ∀ c ∈ st.categories, s ∉ c.caseInsensitiveSuffixList) :
    (s ∈ a.caseSensitiveSuffixList → s ∈ b.caseSensitiveSuffixList →
      ((st.add a).add b).buildMaps.caseSensitiveSuffixMap.value s = some a) ∧
    (s ∈ a.caseInsensitiveSuffixList → s ∈ b.caseInsensitiveSuffixList →
      ((st.add a).add b).buildMaps.caseInsensitiveSuffixMap.value s = some a) ∧
    (s = "x".toList → s ∈ a.caseSensitiveSuffixList → s ∈ b.caseSensitiveSuffixList →
      (category exactMatch ((st.add a).add b) "f.x".toList).1 = some a) ∧
    (s = "x".toList → s ∈ a.caseInsensitiveSuffixList →
      s ∈ b.caseInsensitiveSuffixList → s ∉ a.caseSensitiveSuffixList →
      s ∉ b.caseSensitiveSuffixList →
      (category exactMatch ((st.add a).add b) "f.x".toList).1 = some a) := by
  have hcats : ((st.add a).add b).categories = st.categories ++ a :: [b] := by
    simp [add]
  have hdirty : ((st.add a).add b).ensureBuilt = ((st.add a).add b).buildMaps := by
    simp [ensureBuilt, add]
  have key_cs : s ∈ a.caseSensitiveSuffixList →
      ((st.add a).add b).buildMaps.caseSensitiveSuffixMap.value s = some a := by
    intro ha
    rw [buildMaps_cs_value, hcats]
    exact find?_split _ _ _ _ (fun y hy => by simpa using hcs y hy) (by simpa using ha)
  have key_ci : s ∈ a.caseInsensitiveSuffixList →
      ((st.add a).add b).buildMaps.caseInsensitiveSuffixMap.value s = some a := by
    intro ha
    rw [buildMaps_ci_value, hcats]
    exact find?_split _ _ _ _ (fun y hy => by simpa using hci y hy) (by simpa using ha)
  have hlast : ((st.add a).add b).lastHit "f.x".toList =
      ((st.add a).add b).buildMaps.lookupSuffix "x".toList := by
    have := lastHit_single ((st.add a).add b) "f".toList "x".toList
      (by decide) (by decide) (by decide)
    rw [hdirty] at this
    exact this
  refine ⟨fun ha _ => key_cs ha, fun ha _ => key_ci ha, ?_, ?_⟩
  · intro hs ha _
    subst hs
    rw [category_eq _ _ _ (by decide), hlast]
    simp only [lookupSuffix, key_cs ha]
  · intro hs ha _ hna hnb
    subst hs
    have hnone : ((st.add a).add b).buildMaps.caseSensitiveSuffixMap.value "x".toList
        = none := by
      rw [buildMaps_cs_value, hcats]
      apply find?_none_of_forall
      intro y hy
      rcases List.mem_append.mp hy with h | h
      · simpa using hcs y h
      · simp only [List.mem_cons, List.mem_singleton, List.not_mem_nil, or_false] at h
        rcases h with h | h
        · subst h; simpa using hna
        · subst h; simpa using hnb
    have hlow : toLower "x".toList = "x".toList := by decide
    rw [category_eq _ _ _ (by decide), hlast]
    simp only [lookupSuffix, hnone, hlow, key_ci ha]

/-- C3 (amended), at a concrete input: `first` then `second` added to the empty
store. -/
theorem C3_first_added_wins_witness :
    ((init.add Sample.first).add Sample.second).buildMaps.caseSensitiveSuffixMap.value
      "x".toList = some Sample.first ∧
    (category literalMatch ((init.add Sample.first).add Sample.second) "f.x".toList).1
      = some Sample.first :=
  ⟨(C3_first_added_wins literalMatch init Sample.first Sample.second "x".toList
      (by decide) (by decide)).1 (by decide) (by decide),
   (C3_first_added_wins literalMatch init Sample.first Sample.second "x".toList
      (by decide) (by decide)).2.2.1 rfl (by decide) (by decide)⟩

/-! ## Declared suffixes and the category returned -/

/-- C4 (the claim fails): `second` is in the store and declares the
case-sensitive suffix `x`, and `main` is non-empty, has no dot and does not
contain `x`; yet `main.x` is not classified as `second`, because `first`,
earlier in the store, declares `x` too and owns it. -/
theorem C4_declaring_category_not_returned :
    Sample.second ∈ (fresh [Sample.first, Sample.second]).categories ∧
    "x".toList ∈ Sample.second.caseSensitiveSuffixList ∧
    "main".toList ≠ [] ∧ '.' ∉ "main".toList ∧ 'x' ∉ "main".toList ∧
    (category literalMatch (fresh [Sample.first, Sample.second])
      ("main".toList ++ '.' :: "x".toList)).1 ≠ some Sample.second := by
  decide

/-- In a coherent state the first category of the store that declares the
case-sensitive suffix `s` (non-empty, no dot) is the category of `x.s`. -/
theorem category_first_declarer_cs (exactMatch : QRegExp → QString → Bool)
    (st : MimeCategorizer) (hco : Coherent st) (pre post : List MimeCategory)
    (c : MimeCategory) (s x : QString)
    (hstore : st.categories = pre ++ c :: post)
    (hdecl : s ∈ c.caseSensitiveSuffixList)
    (hfirst : ∀ d ∈ pre, s ∉ d.caseSensitiveSuffixList)
    (hs : s ≠ []) (hsdot : '.' ∉ s) (hx : x ≠ []) (hxdot : '.' ∉ x) :
    (category exactMatch st (x ++ '.' :: s)).1 = some c := by
  have hne : x ++ '.' :: s ≠ [] := by
    cases x with
    | nil => exact absurd rfl hx
    | cons y ys => simp
  have hval : st.ensureBuilt.caseSensitiveSuffixMap.value s = some c := by
    rw [ensureBuilt_cs_value st hco, hstore]
    exact find?_split _ _ _ _ (fun y hy => by simpa using hfirst y hy)
      (by simpa using hdecl)
  rw [category_eq _ _ _ hne, lastHit_single st x s hxdot hsdot hs]
  simp only [lookupSuffix, hval]

/-- C4 (amended): in every state reached from the constructed object, when `c`
is the first category of the store that declares the case-sensitive suffix
`s`, and `s` is non-empty and has no dot, `x.s` is classified as `c` for every
non-empty `x` without a dot. -/
theorem C4_first_declarer_case_sensitive (exactMatch : QRegExp → QString → Bool)
    (calls : List Call) (pre post : List MimeCategory) (c : MimeCategory)
    (s x : QString)
    (hstore : (run exactMatch init calls).categories = pre ++ c :: post)
    (hdecl : s ∈ c.caseSensitiveSuffixList)
    (hfirst : ∀ d ∈ pre, s ∉ d.caseSensitiveSuffixList)
    (hs : s ≠ []) (hsdot : '.' ∉ s) (hx : x ≠ []) (hxdot : '.' ∉ x) :
    (category exactMatch (run exactMatch init calls) (x ++ '.' :: s)).1 = some c :=
  category_first_declarer_cs exactMatch _
    (coherent_run exactMatch calls init (coherent_of_dirty init rfl))
    pre post c s x hstore hdecl hfirst hs hsdot hx hxdot

/-- C4 (amended), at a concrete input: `first` and `second` are added to the
constructed object, and the name is `main.x`. -/
theorem C4_first_declarer_case_sensitive_witness :
    (category literalMatch
      (run literalMatch init [Call.add Sample.first, Call.add Sample.second])
      ("main".toList ++ '.' :: "x".toList)).1 = some Sample.first :=
  C4_first_declarer_case_sensitive literalMatch
    [Call.add Sample.first, Call.add Sample.second]
    [] [Sample.second] Sample.first "x".toList "main".toList
    (by decide) (by decide) (by decide) (by decide) (by decide) (by decide) (by decide)

/-- C5 (the claim fails): `cSource` is in the store and declares the
case-insensitive suffix `c`, stored lower-cased; `main.C` is not classified as
`cSource`, because `cxxSource` declares the case-sensitive suffix `C` and the
case-sensitive map is asked first. -/
theorem C5_case_sensitive_owner_returned :
    Sample.cSource ∈ (fresh [Sample.cSource, Sample.cxxSource]).categories ∧
    "c".toList ∈ Sample.cSource.caseInsensitiveSuffixList ∧
    toLower "c".toList = "c".toList ∧
    "main".toList ≠ [] ∧ '.' ∉ "main".toList ∧
    (category literalMatch (fresh [Sample.cSource, Sample.cxxSource])
      ("main".toList ++ '.' :: toUpper "c".toList)).1 ≠ some Sample.cSource := by
  decide

/-- In a coherent state the first category of the store that declares the
lower-cased case-insensitive suffix `s` (ASCII characters, non-empty, no dot)
is the category of `x.upper(s)`, unless `upper(s)` is a declared
case-sensitive suffix. -/
theorem category_first_declarer_ci (exactMatch : QRegExp → QString → Bool)
    (st : MimeCategorizer) (hco : Coherent st) (pre post : List MimeCategory)
    (c : MimeCategory) (s x : QString)
    (hstore : st.categories = pre ++ c :: post)
    (hdecl : s ∈ c.caseInsensitiveSuffixList)
    (hfirst : ∀ d ∈ pre, s ∉ d.caseInsensitiveSuffixList)
    (hascii : ∀ ch ∈ s, ch.toNat < 128)
    (hlower : toLower s = s)
    (hupper : ∀ d ∈ st.categories, toUpper s ∉ d.caseSensitiveSuffixList)
    (hs : s ≠ []) (hsdot : '.' ∉ s) (hx : x ≠ []) (hxdot : '.' ∉ x) :
    (category exactMatch st (x ++ '.' :: toUpper s)).1 = some c := by
  have hne : x ++ '.' :: toUpper s ≠ [] := by
    cases x with
    | nil => exact absurd rfl hx
    | cons y ys => simp
  have hcs : st.ensureBuilt.caseSensitiveSuffixMap.value (toUpper s) = none := by
    rw [ensureBuilt_cs_value st hco]
    exact find?_none_of_forall _ _ (fun y hy => by simpa using hupper y hy)
  have hci : st.ensureBuilt.caseInsensitiveSuffixMap.value s = some c := by
    rw [ensureBuilt_ci_value st hco, hstore]
    exact find?_split _ _ _ _ (fun y hy => by simpa using hfirst y hy)
      (by simpa using hdecl)
  rw [category_eq _ _ _ hne,
    lastHit_single st x (toUpper s) hxdot (toUpper_dotfree s hascii hsdot)
      (toUpper_ne_nil s hs)]
  simp only [lookupSuffix, hcs, toLower_toUpper s hascii, hlower, hci]

/-- C5 (amended): in every state reached from the constructed object, when `c`
is the first category of the store that declares the case-insensitive suffix
`s`, `s` consists of ASCII characters, is lower-cased, non-empty and has no
dot, and no category declares `upper(s)` as a case-sensitive suffix,
`x.upper(s)` is classified as `c` for every non-empty `x` without a dot. -/
theorem C5_first_declarer_case_insensitive (exactMatch : QRegExp → QString → Bool)
    (calls : List Call) (pre post : List MimeCategory) (c : MimeCategory)
    (s x : QString)
    (hstore : (run exactMatch init calls).categories = pre ++ c :: post)
    (hdecl : s ∈ c.caseInsensitiveSuffixList)
    (hfirst : ∀ d ∈ pre, s ∉ d.caseInsensitiveSuffixList)
    (hascii : ∀ ch ∈ s, ch.toNat < 128)
    (hlower : toLower s = s)
    (hupper : ∀ d ∈ (run exactMatch init calls).categories,
      toUpper s ∉ d.caseSensitiveSuffixList)
    (hs : s ≠ []) (hsdot : '.' ∉ s) (hx : x ≠ []) (hxdot : '.' ∉ x) :
    (category exactMatch (run exactMatch init calls) (x ++ '.' :: toUpper s)).1
      = some c :=
  category_first_declarer_ci exactMatch _
    (coherent_run exactMatch calls init (coherent_of_dirty init rfl))
    pre post c s x hstore hdecl hfirst hascii hlower hupper hs hsdot hx hxdot

/-- C5 (amended), at a concrete input: `cxxSource` is added, removed again, and
`cSource` is added; the name is `main.C`. -/
theorem C5_first_declarer_case_insensitive_witness :
    (category literalMatch
      (run literalMatch init
        [Call.add Sample.cxxSource, Call.classify "main.C".toList,
         Call.remove Sample.cxxSource, Call.add Sample.cSource])
      ("main".toList ++ '.' :: toUpper "c".toList)).1 = some Sample.cSource :=
  C5_first_declarer_case_insensitive literalMatch
    [Call.add Sample.cxxSource, Call.classify "main.C".toList,
     Call.remove Sample.cxxSource, Call.add Sample.cSource]
    [] [] Sample.cSource "c".toList "main".toList
    (by decide) (by decide) (by decide) (by decide) (by decide) (by decide)
    (by decide) (by decide) (by decide) (by decide)

/-- C6 (the claim fails): `bzipTwo` declares `bz2` and not `tar.bz2`, yet
`archive.tar.bz2` is not classified as `bzipTwo`: `bzipOne`, earlier in the
store, declares `bz2` too and owns it. -/
theorem C6_declaring_category_not_returned :
    Sample.bzipTwo ∈ (fresh [Sample.bzipOne, Sample.bzipTwo]).categories ∧
    "bz2".toList ∈ Sample.bzipTwo.caseSensitiveSuffixList ∧
    "tar.bz2".toList ∉ Sample.bzipTwo.caseSensitiveSuffixList ∧
    "tar.bz2".toList ∉ Sample.bzipTwo.caseInsensitiveSuffixList ∧
    (category literalMatch (fresh [Sample.bzipOne, Sample.bzipTwo])
      "archive.tar.bz2".toList).1 ≠ some Sample.bzipTwo := by
  decide

/-- C6 (amended): compound-suffix fallback.  When `c` owns `bz2` in the index
and no category owns `tar.bz2`, `archive.tar.bz2` is classified as `c`; in
general, when no longer candidate of a file name is owned by any category and
its last candidate is owned by `c`, the name is classified as `c`. -/
theorem C6_compound_suffix_fallback (exactMatch : QRegExp → QString → Bool)
    (st : MimeCategorizer) (c : MimeCategory) :
    (st.ensureBuilt.lookupSuffix "bz2".toList = some c →
      st.ensureBuilt.lookupSuffix "tar.bz2".toList = none →
      (category exactMatch st "archive.tar.bz2".toList).1 = some c) ∧
    (∀ (f : QString) (longer : List QString) (last : QString),
      candidates f = longer ++ [last] →
      (∀ s ∈ longer, st.ensureBuilt.lookupSuffix s = none) →
      st.ensureBuilt.lookupSuffix last = some c →
      (category exactMatch st f).1 = some c) := by
  have general : ∀ (f : QString) (longer : List QString) (last : QString),
      candidates f = longer ++ [last] →
      st.ensureBuilt.lookupSuffix last = some c →
      (category exactMatch st f).1 = some c := by
    intro f longer last hcand hlast
    have hf : f ≠ [] := by
      intro h
      subst h
      simp [candidates] at hcand
    have hget : (longer ++ [last]).getLast? = some last := by simp
    rw [category_eq _ _ _ hf]
    simp only [lastHit, hcand, hget, hlast]
  refine ⟨fun h _ => ?_, fun f longer last hcand _ hlast => general f longer last hcand hlast⟩
  exact general "archive.tar.bz2".toList ["tar.bz2".toList] "bz2".toList (by decide) h

/-- C6 (amended), at a concrete input: the store `bzipOne`, `bzipTwo` and the
name `archive.tar.bz2`, in both forms of the statement. -/
theorem C6_compound_suffix_fallback_witness :
    (category literalMatch (fresh [Sample.bzipOne, Sample.bzipTwo])
      "archive.tar.bz2".toList).1 = some Sample.bzipOne ∧
    (category literalMatch (fresh [Sample.bzipOne, Sample.bzipTwo])
      "a.b.bz2".toList).1 = some Sample.bzipOne :=
  ⟨(C6_compound_suffix_fallback literalMatch (fresh [Sample.bzipOne, Sample.bzipTwo])
      Sample.bzipOne).1 (by decide) (by decide),
   (C6_compound_suffix_fallback literalMatch (fresh [Sample.bzipOne, Sample.bzipTwo])
      Sample.bzipOne).2 "a.b.bz2".toList ["b.bz2".toList] "bz2".toList
      (by decide) (by decide) (by decide)⟩

/-! ## The pattern fallback -/

theorem matchPatternList_eq_any (exactMatch : QRegExp → QString → Bool) (f : QString)
    (l : List QRegExp) :
    matchPatternList exactMatch f l = l.any (fun p => exactMatch p f) := by
  induction l with
  | nil => rfl
  | cons p ps ih =>
    simp only [matchPatternList, List.any_cons, ih]
    cases exactMatch p f <;> simp

theorem matchCategories_eq_find (exactMatch : QRegExp → QString → Bool) (f : QString)
    (cats : List MimeCategory) :
    matchCategories exactMatch f cats =
      cats.find? (fun c => c.patternList.any (fun p => exactMatch p f)) := by
  induction cats with
  | nil => rfl
  | cons c cs ih =>
    simp only [matchCategories, List.find?_cons, matchPatternList_eq_any, ih]
    cases c.patternList.any (fun p => exactMatch p f) <;> simp

/-- Where no candidate hits, the result of `category()` is that of the pattern
loops over the store. -/
theorem category_of_miss (exactMatch : QRegExp → QString → Bool)
    (st : MimeCategorizer) (f : QString) (hf : f ≠ [])
    (hmiss : ∀ s ∈ candidates f, st.ensureBuilt.lookupSuffix s = none) :
    (category exactMatch st f).1 =
      st.categories.find? (fun c => c.patternList.any (fun p => exactMatch p f)) := by
  have hlast : st.lastHit f = none := by
    unfold lastHit
    cases h : (candidates f).getLast? with
    | none => rfl
    | some s => exact hmiss s (List.mem_of_getLast?_eq_some h)
  rw [category_eq _ _ _ hf, hlast]
  simp only [matchPatterns, ensureBuilt_categories, matchCategories_eq_find]

theorem find?_any_eq_none (exactMatch : QRegExp → QString → Bool) (f : QString)
    (cats : List MimeCategory) :
    cats.find? (fun c => c.patternList.any (fun p => exactMatch p f)) = none ↔
      ∀ c ∈ cats, ∀ p ∈ c.patternList, exactMatch p f = false := by
  rw [List.find?_eq_none]
  constructor
  · intro h c hc p hp
    have := h c hc
    simp only [List.any_eq_true, not_exists, not_and, Bool.not_eq_true] at this
    exact this p hp
  · intro h c hc
    simp only [List.any_eq_true, not_exists, not_and, Bool.not_eq_true]
    exact fun p hp => h c hc p hp

/-- C7: for a non-empty file name none of whose candidates hits in either map,
`category()` returns the first category in store order one of whose patterns
matches the whole name exactly, and it returns null exactly when no pattern of
any category of the store matches. -/
theorem C7_pattern_fallback (exactMatch : QRegExp → QString → Bool)
    (st : MimeCategorizer) (f : QString) (hf : f ≠ [])
    (hmiss : ∀ s ∈ candidates f, st.ensureBuilt.lookupSuffix s = none) :
    (category exactMatch st f).1 =
      st.categories.find? (fun c => c.patternList.any (fun p => exactMatch p f)) ∧
    ((category exactMatch st f).1 = none ↔
      ∀ c ∈ st.categories, ∀ p ∈ c.patternList, exactMatch p f = false) := by
  have hres := category_of_miss exactMatch st f hf hmiss
  refine ⟨hres, ?_⟩
  rw [hres]
  exact find?_any_eq_none exactMatch f st.categories

/-- C7, at a concrete input: `first` has no pattern, the pattern of `byName`
matches `archive.tar.bz2`, and no candidate of that name is owned. -/
theorem C7_pattern_fallback_witness :
    (category literalMatch (fresh [Sample.first, Sample.byName])
      "archive.tar.bz2".toList).1 = some Sample.byName :=
  (C7_pattern_fallback literalMatch (fresh [Sample.first, Sample.byName])
    "archive.tar.bz2".toList (by decide) (by decide)).1.trans (by decide)

/-! ## Directories and names without a suffix -/

/-- C8: an item flagged as a directory (`isDir()` or `isDirInfo()`) gets no
category, whatever its name and whatever the store, and the call leaves the
categorizer as it was. -/
theorem C8_directories_not_classified (exactMatch : QRegExp → QString → Bool)
    (st : MimeCategorizer) (item : FileInfo)
    (hdir : item.isDir = true ∨ item.isDirInfo = true) :
    categoryOfItem exactMatch st item = (none, st) := by
  unfold categoryOfItem
  rcases hdir with h | h <;> simp [h]

/-- C8, at a concrete input: the directory named `archive.tar.bz2` gets no
category in a store where the plain file of that name gets one. -/
theorem C8_directories_not_classified_witness :
    (categoryOfItem literalMatch (fresh [Sample.byName]) Sample.directory).1 = none ∧
    (categoryOfItem literalMatch (fresh [Sample.byName]) Sample.plainFile).1
      = some Sample.byName :=
  ⟨congrArg Prod.fst (C8_directories_not_classified literalMatch (fresh [Sample.byName])
      Sample.directory (Or.inl rfl)), by decide⟩

/-- C9: in a store none of whose patterns matches the name `.`, both the empty
name and the name `.` get no category; neither name has a suffix candidate.
(The empty name is turned away before any lookup, so for it the patterns do
not matter.) -/
theorem C9_no_suffix_no_match (exactMatch : QRegExp → QString → Bool)
    (st : MimeCategorizer)
    (hpat : ∀ c ∈ st.categories, ∀ p ∈ c.patternList,
      exactMatch p ".".toList = false) :
    (category exactMatch st "".toList).1 = none ∧
    (category exactMatch st ".".toList).1 = none ∧
    candidates "".toList = [] ∧ candidates ".".toList = [] := by
  refine ⟨rfl, ?_, by decide, by decide⟩
  rw [category_of_miss exactMatch st ".".toList (by decide)
    (by intro s hs; simp [candidates] at hs)]
  exact (find?_any_eq_none exactMatch ".".toList st.categories).mpr hpat

/-- C9, at a concrete input: the store `tarballs`, `byName`, whose one pattern
does not match `.`. -/
theorem C9_no_suffix_no_match_witness :
    (category literalMatch (fresh [Sample.tarballs, Sample.byName]) "".toList).1 = none ∧
    (category literalMatch (fresh [Sample.tarballs, Sample.byName]) ".".toList).1
      = none :=
  ⟨(C9_no_suffix_no_match literalMatch (fresh [Sample.tarballs, Sample.byName])
      (by decide)).1,
   (C9_no_suffix_no_match literalMatch (fresh [Sample.tarballs, Sample.byName])
      (by decide)).2.1⟩

/-! ## Index coherence -/

/-- C10: in every state reached from the constructed object by `add`, `remove`,
`clear` and `category()` calls, when the dirty flag is false both maps are the
maps `buildMaps()` makes of the current store: their keys are exactly the
suffixes declared by the categories in the store, and each key is mapped to a
category of the store that declares it; and `category()` returns what it
returns on a fresh categorizer with the same store. -/
theorem C10_index_coherence (exactMatch : QRegExp → QString → Bool) (calls : List Call) :
    ((run exactMatch init calls).mapsDirty = false →
      (run exactMatch init calls).caseInsensitiveSuffixMap
        = (run exactMatch init calls).buildMaps.caseInsensitiveSuffixMap ∧
      (run exactMatch init calls).caseSensitiveSuffixMap
        = (run exactMatch init calls).buildMaps.caseSensitiveSuffixMap ∧
      (∀ k, k ∈ (run exactMatch init calls).caseSensitiveSuffixMap.keys ↔
        ∃ c ∈ (run exactMatch init calls).categories, k ∈ c.caseSensitiveSuffixList) ∧
      (∀ k, k ∈ (run exactMatch init calls).caseInsensitiveSuffixMap.keys ↔
        ∃ c ∈ (run exactMatch init calls).categories, k ∈ c.caseInsensitiveSuffixList) ∧
      (∀ k c, (run exactMatch init calls).caseSensitiveSuffixMap.value k = some c →
        c ∈ (run exactMatch init calls).categories ∧ k ∈ c.caseSensitiveSuffixList) ∧
      (∀ k c, (run exactMatch init calls).caseInsensitiveSuffixMap.value k = some c →
        c ∈ (run exactMatch init calls).categories ∧ k ∈ c.caseInsensitiveSuffixList)) ∧
    (∀ f, (category exactMatch (run exactMatch init calls) f).1
      = (category exactMatch (fresh (run exactMatch init calls).categories) f).1) := by
  have hco : Coherent (run exactMatch init calls) :=
    coherent_run exactMatch calls init (coherent_of_dirty init rfl)
  generalize run exactMatch init calls = st at hco
  refine ⟨fun hd => ?_, fun f => category_eq_fresh exactMatch st hco f⟩
  obtain ⟨hci, hcs⟩ := hco hd
  refine ⟨hci, hcs, ?_, ?_, ?_, ?_⟩
  · intro k
    rw [mem_keys_iff, hcs, buildMaps_cs_value, find?_mem_isSome]
    simp
  · intro k
    rw [mem_keys_iff, hci, buildMaps_ci_value, find?_mem_isSome]
    simp
  · intro k c hv
    rw [hcs, buildMaps_cs_value] at hv
    have := find?_some_mem _ _ _ hv
    exact ⟨this.1, by simpa using this.2⟩
  · intro k c hv
    rw [hci, buildMaps_ci_value] at hv
    have := find?_some_mem _ _ _ hv
    exact ⟨this.1, by simpa using this.2⟩

/-! ## Repeated calls -/

theorem ensureBuilt_idem (st : MimeCategorizer) :
    st.ensureBuilt.ensureBuilt = st.ensureBuilt := by
  by_cases hd : st.mapsDirty = true
  · simp [ensureBuilt, hd, buildMaps]
  · have hd0 : st.mapsDirty = false := by simpa using hd
    simp [ensureBuilt, hd0]

theorem ensureBuilt_of_clean (st : MimeCategorizer) (h : st.mapsDirty = false) :
    st.ensureBuilt = st := by
  simp [ensureBuilt, h]

/-- C11: two calls of `category()` in a row with the same file name return the
same category, and the second call leaves the whole state (store, both maps,
dirty flag) as the first call left it; while the flag is not dirty the rebuild
step does nothing. -/
theorem C11_classify_idempotent (exactMatch : QRegExp → QString → Bool)
    (st : MimeCategorizer) (f : QString) :
    (category exactMatch (category exactMatch st f).2 f).1
      = (category exactMatch st f).1 ∧
    (category exactMatch (category exactMatch st f).2 f).2
      = (category exactMatch st f).2 ∧
    (st.mapsDirty = false → st.ensureBuilt = st ∧ (category exactMatch st f).2 = st) := by
  cases f with
  | nil => exact ⟨rfl, rfl, fun h => ⟨ensureBuilt_of_clean st h, rfl⟩⟩
  | cons x xs =>
    have h1 := category_eq exactMatch st (x :: xs) (by simp)
    have h2 := category_eq exactMatch st.ensureBuilt (x :: xs) (by simp)
    have hst : (category exactMatch st (x :: xs)).2 = st.ensureBuilt := by rw [h1]
    refine ⟨?_, ?_, fun h => ⟨ensureBuilt_of_clean st h, ?_⟩⟩
    · rw [hst, h2, h1]
      simp only [lastHit, ensureBuilt_idem]
    · rw [hst, h2]
      simp only [ensureBuilt_idem]
    · rw [hst, ensureBuilt_of_clean st h]

/-! ## The store sequence -/

theorem category_categories (exactMatch : QRegExp → QString → Bool)
    (st : MimeCategorizer) (f : QString) :
    (category exactMatch st f).2.categories = st.categories := by
  cases f with
  | nil => rfl
  | cons x xs =>
    rw [category_eq _ _ _ (by simp)]
    exact ensureBuilt_categories st

theorem categoryOfItem_categories (exactMatch : QRegExp → QString → Bool)
    (st : MimeCategorizer) (item : FileInfo) :
    (categoryOfItem exactMatch st item).2.categories = st.categories := by
  unfold categoryOfItem
  split
  · rfl
  · exact category_categories exactMatch st item.name

theorem nodup_run (exactMatch : QRegExp → QString → Bool) (calls : List Call) :
    ∀ st : MimeCategorizer, (st.categories.map MimeCategory.ptr).Nodup →
      addsFresh exactMatch st calls = true →
      ((run exactMatch st calls).categories.map MimeCategory.ptr).Nodup := by
  induction calls with
  | nil => intro st h _; exact h
  | cons call rest ih =>
    intro st h hf
    cases call with
    | add c =>
      simp only [addsFresh, Bool.and_eq_true] at hf
      have hnot : c.ptr ∉ st.categories.map MimeCategory.ptr := by
        intro hmem
        have hc : (st.categories.map MimeCategory.ptr).contains c.ptr = true := by
          simpa using hmem
        have h1 := hf.1
        rw [hc] at h1
        cases h1
      refine ih (st.add c) ?_ hf.2
      simp only [add, List.map_append, List.map_cons, List.map_nil]
      refine List.Nodup.append h (List.nodup_singleton _) ?_
      intro a ha hb
      simp only [List.mem_singleton] at hb
      subst hb
      exact hnot ha
    | remove c =>
      simp only [addsFresh] at hf
      refine ih _ ?_ hf
      simp only [step, remove]
      exact List.Nodup.sublist (List.Sublist.map _ (List.filter_sublist _)) h
    | clear =>
      simp only [addsFresh] at hf
      refine ih _ ?_ hf
      simp [step, clear]
    | classify f =>
      simp only [addsFresh] at hf
      refine ih _ ?_ hf
      simp only [step, category_categories]
      exact h
    | classifyItem item =>
      simp only [addsFresh] at hf
      refine ih _ ?_ hf
      simp only [step, categoryOfItem_categories]
      exact h

/-- C12 (the claim fails): `add` does not look whether the object is stored
already; after `add( first )` twice the store holds the same object twice. -/
theorem C12_same_object_twice :
    (run literalMatch init [Call.add Sample.first, Call.add Sample.first]).categories
      = [Sample.first, Sample.first] ∧
    ¬ ((run literalMatch init
        [Call.add Sample.first, Call.add Sample.first]).categories.map
          MimeCategory.ptr).Nodup := by
  decide

/-- C12 (amended): in every state reached from the empty store by `add`,
`remove`, `clear` and `category()` calls in which no `add` hands over an object
that is in the store at that moment, no two entries of the store are the same
object. -/
theorem C12_store_unique_when_adds_fresh (exactMatch : QRegExp → QString → Bool)
    (calls : List Call) (hfresh : addsFresh exactMatch init calls = true) :
    ((run exactMatch init calls).categories.map MimeCategory.ptr).Nodup :=
  nodup_run exactMatch calls init (by simp [init]) hfresh

/-- C12 (amended), at a concrete input: `first` and `second` are added, a name
is classified and `first` is removed. -/
theorem C12_store_unique_when_adds_fresh_witness :
    ((run literalMatch init
      [Call.add Sample.first, Call.add Sample.second, Call.classify "f.x".toList,
       Call.remove Sample.first]).categories.map MimeCategory.ptr).Nodup :=
  C12_store_unique_when_adds_fresh literalMatch
    [Call.add Sample.first, Call.add Sample.second, Call.classify "f.x".toList,
     Call.remove Sample.first] (by decide)

/-- C13 (the claim fails): the store holds `first`, `second`, `first`;
`remove( first )` takes out both entries of `first`, where removal of the
first matching entry alone would leave `second`, `first`. -/
theorem C13_remove_deletes_every_entry :
    (run literalMatch init
      [Call.add Sample.first, Call.add Sample.second, Call.add Sample.first]).categories
      = [Sample.first, Sample.second, Sample.first] ∧
    removeFirst [Sample.first, Sample.second, Sample.first] Sample.first
      = [Sample.second, Sample.first] ∧
    (remove (fresh [Sample.first, Sample.second, Sample.first]) Sample.first).categories
      = [Sample.second] ∧
    (remove (fresh [Sample.first, Sample.second, Sample.first]) Sample.first).categories
      ≠ removeFirst [Sample.first, Sample.second, Sample.first] Sample.first := by
  decide

/-- C13 (amended): `remove( c )` deletes every entry identical to `c`, which
is the first such entry alone when `c` is stored once; every other entry stays
in place in its original relative order, and the index is marked dirty.  When
`c` is absent the store is unchanged.  `add( c )` appends `c` at the end,
leaves the earlier entries and their order unchanged and marks the index
dirty. -/
theorem C13_remove_and_add (st : MimeCategorizer) (c : MimeCategory) :
    (∀ d ∈ (st.remove c).categories, d.ptr ≠ c.ptr) ∧
    List.Sublist (st.remove c).categories st.categories ∧
    (∀ d : MimeCategory, d.ptr ≠ c.ptr →
      (st.remove c).categories.count d = st.categories.count d) ∧
    (∀ (pre post : List MimeCategory) (e : MimeCategory),
      st.categories = pre ++ e :: post → e.ptr = c.ptr →
      (∀ d ∈ pre, d.ptr ≠ c.ptr) → (∀ d ∈ post, d.ptr ≠ c.ptr) →
      (st.remove c).categories = pre ++ post ∧
      (st.remove c).categories = removeFirst st.categories c) ∧
    (st.remove c).mapsDirty = true ∧
    ((∀ d ∈ st.categories, d.ptr ≠ c.ptr) → (st.remove c).categories = st.categories) ∧
    (st.add c).categories = st.categories ++ [c] ∧
    (st.add c).mapsDirty = true := by
  have hkeep : ∀ l : List MimeCategory, (∀ d ∈ l, d.ptr ≠ c.ptr) →
      l.filter (fun d => d.ptr != c.ptr) = l := by
    intro l hl
    rw [List.filter_eq_self]
    intro a ha
    simpa using hl a ha
  have hfirst : ∀ (pre post : List MimeCategory) (e : MimeCategory), e.ptr = c.ptr →
      (∀ d ∈ pre, d.ptr ≠ c.ptr) → removeFirst (pre ++ e :: post) c = pre ++ post := by
    intro pre post e he hpre
    induction pre with
    | nil => simp [removeFirst, he]
    | cons y ys ih =>
      have hy : ¬ y.ptr = c.ptr := hpre y (List.mem_cons_self _ _)
      have hrec := ih (fun d hd => hpre d (List.mem_cons_of_mem _ hd))
      show removeFirst (y :: (ys ++ e :: post)) c = y :: (ys ++ post)
      simp only [removeFirst, hy, if_false, hrec]
  refine ⟨?_, ?_, ?_, ?_, rfl, ?_, rfl, rfl⟩
  · intro d hd
    simp only [remove, List.mem_filter] at hd
    simpa using hd.2
  · exact List.filter_sublist _
  · intro d hd
    simp only [remove]
    exact List.count_filter (by simpa using hd)
  · intro pre post e hstore he hpre hpost
    have hrm : (st.remove c).categories = pre ++ post := by
      simp only [remove, hstore, List.filter_append, List.filter_cons, he, bne_self_eq_false,
        Bool.false_eq_true, if_false]
      rw [hkeep pre hpre, hkeep post hpost]
    refine ⟨hrm, ?_⟩
    rw [hrm, hstore, hfirst pre post e he hpre]
  · intro h
    exact hkeep st.categories h

/-- C13 (amended), at a concrete input: `second` is removed from the store
`first`, `second`, `bzipOne`, where it is stored once. -/
theorem C13_remove_and_add_witness :
    ((fresh [Sample.first, Sample.second, Sample.bzipOne]).remove Sample.second).categories
      = [Sample.first] ++ [Sample.bzipOne] ∧
    ((fresh [Sample.first, Sample.second, Sample.bzipOne]).remove Sample.second).categories
      = removeFirst [Sample.first, Sample.second, Sample.bzipOne] Sample.second :=
  (C13_remove_and_add (fresh [Sample.first, Sample.second, Sample.bzipOne])
    Sample.second).2.2.2.1 [Sample.first] [Sample.bzipOne] Sample.second rfl rfl
    (by decide) (by decide)

/-! ## The loop of `category()` as coded -/

/-- C16: for a name `x.s` with `x` and `s` non-empty and without a dot, when
the case-sensitive map gives `s` to `a`, `category()` returns `a`, whatever
the case-insensitive map holds for the lower-cased `s`; the case-insensitive
map decides only when `s` is absent from the case-sensitive map. -/
theorem C16_case_sensitive_first (exactMatch : QRegExp → QString → Bool)
    (st : MimeCategorizer) (x s : QString) (a : MimeCategory)
    (hx : x ≠ []) (hxdot : '.' ∉ x) (hs : s ≠ []) (hsdot : '.' ∉ s)
    (ha : st.ensureBuilt.caseSensitiveSuffixMap.value s = some a) :
    (category exactMatch st (x ++ '.' :: s)).1 = some a ∧
    (∀ b, st.ensureBuilt.caseInsensitiveSuffixMap.value (toLower s) = some b →
      (category exactMatch st (x ++ '.' :: s)).1 = some a) ∧
    (∀ t, st.ensureBuilt.caseSensitiveSuffixMap.value t = none →
      st.ensureBuilt.lookupSuffix t
        = st.ensureBuilt.caseInsensitiveSuffixMap.value (toLower t)) := by
  have hne : x ++ '.' :: s ≠ [] := by
    cases x with
    | nil => exact absurd rfl hx
    | cons y ys => simp
  have hres : (category exactMatch st (x ++ '.' :: s)).1 = some a := by
    rw [category_eq _ _ _ hne, lastHit_single st x s hxdot hsdot hs]
    simp only [lookupSuffix, ha]
  refine ⟨hres, fun _ _ => hres, ?_⟩
  intro t ht
  simp only [lookupSuffix, ht]

/-- C16, at a concrete input: `main.C` in the store `cSource`, `cxxSource`; the
case-insensitive map gives `c` to `cSource`, the case-sensitive map gives `C`
to `cxxSource`, and `cxxSource` is returned. -/
theorem C16_case_sensitive_first_witness :
    (fresh [Sample.cSource, Sample.cxxSource]).ensureBuilt.caseInsensitiveSuffixMap.value
      (toLower "C".toList) = some Sample.cSource ∧
    (category literalMatch (fresh [Sample.cSource, Sample.cxxSource])
      ("main".toList ++ '.' :: "C".toList)).1 = some Sample.cxxSource :=
  ⟨by decide,
   (C16_case_sensitive_first literalMatch (fresh [Sample.cSource, Sample.cxxSource])
      "main".toList "C".toList Sample.cxxSource (by decide) (by decide) (by decide)
      (by decide) (by decide)).1⟩

/-- C17: `category()` as coded, for a non-empty file name.  The candidates are
the text after the first dot, then the text after the first dot of each
candidate in turn, up to the first empty one (which is none of them).  Without
a candidate the result is the pattern fallback for the whole name; otherwise
it is the lookup of the last candidate alone (case-sensitive map, else
case-insensitive map with the lower-cased candidate) when that hits, and the
pattern fallback when it does not.  The earlier candidates do not enter. -/
theorem C17_last_candidate_decides (exactMatch : QRegExp → QString → Bool)
    (st : MimeCategorizer) (f : QString) (hf : f ≠ []) :
    (candidates f =
      if (section1 f).isEmpty then [] else section1 f :: candidates (section1 f)) ∧
    (∀ s ∈ candidates f, s ≠ []) ∧
    (candidates f = [] →
      (category exactMatch st f).1 = matchPatterns exactMatch st.ensureBuilt f) ∧
    (∀ (earlier : List QString) (last : QString), candidates f = earlier ++ [last] →
      (category exactMatch st f).1 =
        match (match st.ensureBuilt.caseSensitiveSuffixMap.value last with
               | some c => some c
               | none => st.ensureBuilt.caseInsensitiveSuffixMap.value (toLower last)) with
        | some c => some c
        | none => matchPatterns exactMatch st.ensureBuilt f) := by
  refine ⟨candidates_unfold f, candidates_ne_nil f, ?_, ?_⟩
  · intro h
    rw [category_eq _ _ _ hf]
    simp only [lastHit, h, List.getLast?_nil]
  · intro earlier last h
    have hget : (earlier ++ [last]).getLast? = some last := by simp
    rw [category_eq _ _ _ hf]
    simp only [lastHit, h, hget, lookupSuffix]

/-- C17, at a concrete input: `archive.tar.bz2` in the store `tarballs`,
`byName`: the hit of the earlier candidate `tar.bz2` does not enter, the last
candidate `bz2` misses and the pattern of `byName` decides. -/
theorem C17_last_candidate_decides_witness :
    (category literalMatch (fresh [Sample.tarballs, Sample.byName])
      "archive.tar.bz2".toList).1 = some Sample.byName :=
  ((C17_last_candidate_decides literalMatch (fresh [Sample.tarballs, Sample.byName])
    "archive.tar.bz2".toList (by decide)).2.2.2 ["tar.bz2".toList] "bz2".toList
    (by decide)).trans (by decide)

/-! ## Termination of the loop -/

theorem section1_dotfree (s : QString) (h : '.' ∉ s) : section1 s = [] := by
  induction s with
  | nil => rfl
  | cons c cs ih =>
    have hc : ¬ c = '.' := fun h0 => h (by simp [h0])
    simp only [section1, hc, if_false]
    exact ih (fun h0 => h (List.mem_cons_of_mem _ h0))

theorem candidates_length_le_dots (f : QString) : (candidates f).length ≤ dots f := by
  induction f with
  | nil => simp [candidates]
  | cons c cs ih =>
    unfold dots at ih ⊢
    by_cases hc : c = '.'
    · subst hc
      simp only [candidates, if_true, List.length_append, List.count_cons_self]
      have : (if cs.isEmpty = true then ([] : List QString) else [cs]).length ≤ 1 := by
        split <;> simp
      omega
    · have hne : ('.' == c) = false := by
        simp only [beq_eq_false_iff_ne, ne_eq]
        exact fun h => hc h.symm
      simp only [candidates, hc, if_false, List.count_cons, beq_iff_eq]
      have hc2 : ¬ c = '.' := hc
      simp only [hc2, if_false, Nat.add_zero]
      exact ih

/-- The suffixes the loop walks from `section1 f` on are the candidates of
`f`. -/
theorem walked_section1 (f : QString) :
    (if (section1 f).isEmpty then [] else section1 f :: candidates (section1 f))
      = candidates f :=
  (candidates_unfold f).symm

theorem loopRounds_eq (fuel : Nat) :
    ∀ s : QString, (if s.isEmpty then [] else s :: candidates s).length ≤ fuel →
      loopRounds fuel s = some (if s.isEmpty then [] else s :: candidates s).length := by
  induction fuel with
  | zero =>
    intro s h
    cases s with
    | nil => rfl
    | cons c cs => simp at h
  | succ n ih =>
    intro s h
    cases s with
    | nil => rfl
    | cons c cs =>
      simp only [List.isEmpty_cons, Bool.false_eq_true, if_false, List.length_cons] at h ⊢
      have hlen : (candidates (c :: cs)).length ≤ n := by omega
      rw [← walked_section1 (c :: cs)] at hlen ⊢
      simp only [loopRounds, List.isEmpty_cons, Bool.false_eq_true, if_false, ih _ hlen,
        Option.map_some']

/-- The loop needs one unit of fuel for every suffix it walks, not for every
character. -/
theorem suffixLoop_eq_foldl_of_rounds (st : MimeCategorizer) (fuel : Nat) :
    ∀ (s : QString) (category : Option MimeCategory),
      (if s.isEmpty then [] else s :: candidates s).length ≤ fuel →
      suffixLoop st fuel s category =
        (if s.isEmpty then [] else s :: candidates s).foldl
          (fun _ t => st.lookupSuffix t) category := by
  induction fuel with
  | zero =>
    intro s category h
    cases s with
    | nil => rfl
    | cons c cs => simp at h
  | succ n ih =>
    intro s category h
    cases s with
    | nil => rfl
    | cons c cs =>
      simp only [List.isEmpty_cons, Bool.false_eq_true, if_false, List.length_cons] at h
      have hlen : (candidates (c :: cs)).length ≤ n := by omega
      rw [← walked_section1 (c :: cs)] at hlen
      simp only [suffixLoop, List.isEmpty_cons, Bool.false_eq_true, if_false,
        List.foldl_cons]
      rw [ih _ _ hlen, candidates_unfold (c :: cs)]

/-- C18: the loop of `category()` terminates for every file name.  A round
replaces the suffix by the text after its first dot, which is strictly shorter
(and empty when the suffix has no dot); the loop makes a number of rounds that
is at most the number of dots of the file name, and with that much fuel it
yields what `category()` gets from it. -/
theorem C18_loop_terminates (f : QString) :
    (∀ s : QString, s ≠ [] → (section1 s).length < s.length) ∧
    (∀ s : QString, '.' ∉ s → section1 s = []) ∧
    (∃ n, n ≤ dots f ∧ ∀ fuel, n ≤ fuel → loopRounds fuel (section1 f) = some n) ∧
    (∀ (st : MimeCategorizer) (fuel : Nat) (category : Option MimeCategory),
      dots f ≤ fuel →
      suffixLoop st fuel (section1 f) category
        = suffixLoop st (section1 f).length (section1 f) category) := by
  refine ⟨section1_length_lt, section1_dotfree, ⟨(candidates f).length,
    candidates_length_le_dots f, ?_⟩, ?_⟩
  · intro fuel h
    have := loopRounds_eq fuel (section1 f) (by rw [walked_section1]; exact h)
    rw [walked_section1] at this
    exact this
  · intro st fuel category h
    rw [suffixLoop_eq_foldl st _ _ _ (Nat.le_refl _),
      suffixLoop_eq_foldl_of_rounds st fuel _ _
        (by rw [walked_section1]; exact Nat.le_trans (candidates_length_le_dots f) h)]

/-! ## The default categories -/

theorem foldl_add_categories (l : List MimeCategory) :
    ∀ st : MimeCategorizer, (l.foldl add st).categories = st.categories ++ l := by
  induction l with
  | nil => intro st; simp
  | cons c cs ih =>
    intro st
    rw [List.foldl_cons, ih]
    simp [add]

theorem foldl_add_dirty (l : List MimeCategory) :
    ∀ st : MimeCategorizer, st.mapsDirty = true → (l.foldl add st).mapsDirty = true := by
  induction l with
  | nil => intro st h; exact h
  | cons c cs ih =>
    intro st _
    rw [List.foldl_cons]
    exact ih _ rfl

/-- With no settings group to read, `readSettings()` leaves the default
categories in the store and the maps flagged dirty. -/
theorem readSettings_nil
    (addPatterns : MimeCategory → List QString → CaseSensitivity → MimeCategory)
    (dcs : CaseSensitivity) (st : MimeCategorizer) :
    (readSettings addPatterns dcs [] st).categories = defaultCategories dcs ∧
    (readSettings addPatterns dcs [] st).mapsDirty = true := by
  have h : readSettings addPatterns dcs [] st = addDefaultCategories dcs st.clear := by
    simp [readSettings, readGroups, clear]
  rw [h]
  unfold addDefaultCategories
  exact ⟨by rw [foldl_add_categories]; simp [clear], foldl_add_dirty _ _ rfl⟩

/-- The logged `addSuffixes()` makes the map of `addSuffixes`. -/
theorem addSuffixesLogged_fst (c : MimeCategory) (l : List QString) :
    ∀ (m : SuffixMap) (log : List DuplicateReport),
      (addSuffixesLogged m c l log).1 = addSuffixes m c l := by
  induction l with
  | nil => intro m log; rfl
  | cons x xs ih =>
    intro m log
    simp only [addSuffixesLogged, addSuffixes]
    split
    · exact ih _ _
    · exact ih _ _

/-- The logged loop of `buildMaps()` makes the maps of `buildLoop`. -/
theorem buildLoopLogged_maps (cats : List MimeCategory) :
    ∀ (ci cs : SuffixMap) (log : List DuplicateReport),
      ((buildLoopLogged cats (ci, cs, log)).1, (buildLoopLogged cats (ci, cs, log)).2.1)
        = buildLoop cats (ci, cs) := by
  induction cats with
  | nil => intro ci cs log; rfl
  | cons c rest ih =>
    intro ci cs log
    simp only [buildLoopLogged, buildLoop, addSuffixesLogged_fst]
    exact ih _ _ _

/-- C14: with no category loaded from the settings, `readSettings()` calls
`addDefaultCategories()`, which leaves 20 categories in the store; one of them
is named `C/C++`; the category of that name has `cpp` and `h` among its
suffixes (in the list of the default case sensitivity of
`MimeCategory::addSuffixes()`), and `main.cpp` is classified as that
category. -/
theorem C14_default_bootstrap
    (addPatterns : MimeCategory → List QString → CaseSensitivity → MimeCategory)
    (defaultCaseSensitivity : CaseSensitivity) (exactMatch : QRegExp → QString → Bool)
    (st : MimeCategorizer) :
    20 ≤ (readSettings addPatterns defaultCaseSensitivity [] st).categories.length ∧
    (∃ c ∈ (readSettings addPatterns defaultCaseSensitivity [] st).categories,
      c.name = "C/C++".toList) ∧
    (∀ c ∈ (readSettings addPatterns defaultCaseSensitivity [] st).categories,
      c.name = "C/C++".toList →
      "cpp".toList ∈ c.suffixList defaultCaseSensitivity ∧
      "h".toList ∈ c.suffixList defaultCaseSensitivity ∧
      (category exactMatch (readSettings addPatterns defaultCaseSensitivity [] st)
        "main.cpp".toList).1 = some c) := by
  obtain ⟨hcats, hdirty⟩ := readSettings_nil addPatterns defaultCaseSensitivity st
  have hfresh := category_eq_fresh exactMatch
    (readSettings addPatterns defaultCaseSensitivity [] st)
    (coherent_of_dirty _ hdirty) "main.cpp".toList
  rw [hcats] at hfresh
  rw [hfresh, hcats, category_eq _ _ _ (by decide)]
  have hlast : ∀ dcs : CaseSensitivity, ∀ c ∈ defaultCategories dcs,
      c.name = "C/C++".toList →
      "cpp".toList ∈ c.suffixList dcs ∧ "h".toList ∈ c.suffixList dcs ∧
      (fresh (defaultCategories dcs)).lastHit "main.cpp".toList = some c := by
    intro dcs
    cases dcs <;> decide
  refine ⟨?_, ?_, ?_⟩
  · cases defaultCaseSensitivity <;> decide
  · cases defaultCaseSensitivity <;> decide
  · intro c hc hname
    obtain ⟨h1, h2, h3⟩ := hlast defaultCaseSensitivity c hc hname
    exact ⟨h1, h2, by rw [h3]⟩

/-- C19: the default categories are free of conflicts.  No suffix is declared
twice, neither by two categories nor within one, also when the suffixes are
compared lower-cased; `buildMaps()` on the defaults reports no duplicate; and
every suffix of a default category is owned by that category in the map of
its list. -/
theorem C19_defaults_conflict_free (defaultCaseSensitivity : CaseSensitivity) :
    ((((defaultCategories defaultCaseSensitivity).map
        (fun c => c.caseInsensitiveSuffixList ++ c.caseSensitiveSuffixList)).flatten).map
          toLower).Nodup ∧
    duplicateReports (addDefaultCategories defaultCaseSensitivity init) = [] ∧
    (∀ c ∈ defaultCategories defaultCaseSensitivity,
      (∀ s ∈ c.caseSensitiveSuffixList,
        (addDefaultCategories defaultCaseSensitivity init).buildMaps.caseSensitiveSuffixMap.value
          s = some c) ∧
      (∀ s ∈ c.caseInsensitiveSuffixList,
        (addDefaultCategories defaultCaseSensitivity
          init).buildMaps.caseInsensitiveSuffixMap.value s = some c)) := by
  cases defaultCaseSensitivity <;> decide

end MimeCategorizer

end QZedStat
